import Mathlib

/-!
Verification of the PyCamPermanent networking subsystem
(`pycam/networking/sockets.py`).

Python strings are embedded as `List Char` (`PyStr`), Python numbers as
`Int`/`ℚ`, Python dicts as association lists with first-occurrence lookup
and in-place overwrite.  The wire codec (`encode_comms` / `decode_comms`),
the frame receiver (`recv_comms`), broadcast routing (`send_to_all`),
the dispatcher loop (`_handle_commands`), connection closing
(`close_connection`) and the orchestrator shutdown handler
(`MasterComms.EXT`) are translated below directly from the source.
-/

/-- Python `str` values are modelled as lists of characters. -/
abbrev PyStr := List Char

/-- Convenience conversion from a Lean string literal to `PyStr`. -/
def pstr (s : String) : PyStr := s.toList

/-- Characters on which Python `str.split()` (no argument) separates:
space, tab, newline, carriage return, vertical tab, form feed. -/
def isWsC (c : Char) : Bool :=
  c.toNat = 32 || c.toNat = 9 || c.toNat = 10 || c.toNat = 13 ||
  c.toNat = 11 || c.toNat = 12

/-- ASCII digit test, used by the numeric-token parsers. -/
def isDigitC (c : Char) : Bool := 48 ≤ c.toNat && c.toNat ≤ 57

/-- Helper for `splitWs`: accumulates the current (reversed) token. -/
def splitWsAux : List Char → List Char → List PyStr
  | [], acc => if acc = [] then [] else [acc.reverse]
  | c :: cs, acc =>
    if isWsC c then
      if acc = [] then splitWsAux cs [] else acc.reverse :: splitWsAux cs []
    else splitWsAux cs (c :: acc)

/-- Python `str.split()` with no argument: split on runs of whitespace,
dropping empty pieces. -/
def splitWs (l : PyStr) : List PyStr := splitWsAux l []

/-- `bytearray.find` for a subsequence: index of the first occurrence of
`pat` in the buffer, or `none` (Python returns `-1`). -/
def findSub (pat : List Char) : List Char → Option Nat
  | [] => if pat.isPrefixOf ([] : List Char) then some 0 else none
  | c :: t =>
    if pat.isPrefixOf (c :: t) then some 0 else (findSub pat t).map (· + 1)

/-- The decimal digit characters `'0'`-`'9'`. -/
def digitChar : Nat → Char
  | 0 => '0' | 1 => '1' | 2 => '2' | 3 => '3' | 4 => '4'
  | 5 => '5' | 6 => '6' | 7 => '7' | 8 => '8' | _ => '9'

/-- Helper for `natToStr`: peels decimal digits off `n`, prepending them to
`acc`; `fuel ≥ n` guarantees enough iterations. -/
def natToStrAux : Nat → Nat → List Char → List Char
  | 0, _, acc => acc
  | f + 1, n, acc =>
    if n = 0 then acc else natToStrAux f (n / 10) (digitChar (n % 10) :: acc)

/-- Python `str` of a non-negative integer. -/
def natToStr (n : Nat) : List Char :=
  if n = 0 then ['0'] else natToStrAux n n []

/-- Python `str` of an integer (`str(int(x))`). -/
def intToStr (n : Int) : List Char :=
  if n < 0 then '-' :: natToStr n.natAbs else natToStr n.natAbs

/-- Numeric value of a list of digit characters, most significant first. -/
def strVal (l : List Char) : Nat :=
  l.foldl (fun a c => a * 10 + (c.toNat - 48)) 0

/-- Parse a non-empty all-digit character list to a natural number. -/
def parseNat (l : List Char) : Option Nat :=
  if l = [] then none
  else if l.all isDigitC then some (strVal l) else none

/-- Python `int(token)` on the token subset produced by the codec:
an optional sign followed by decimal digits.  `none` models the
`ValueError` that `int` raises on any other input. -/
def pyParseInt (s : PyStr) : Option Int :=
  match s with
  | [] => none
  | c :: rest =>
    if c = '-' then (parseNat rest).map (fun n => -(n : Int))
    else if c = '+' then (parseNat rest).map (fun n => (n : Int))
    else (parseNat (c :: rest)).map (fun n => (n : Int))

/-- Unsigned part of Python `float(token)` on the decimal subset
`digits [ '.' digits ]` (either digit group may be empty but not both). -/
def parseUFloat (s : PyStr) : Option ℚ :=
  let I := s.takeWhile isDigitC
  match s.dropWhile isDigitC with
  | [] => if I = [] then none else some ((strVal I : ℚ))
  | '.' :: F =>
    if I = [] && F = [] then none
    else if F.all isDigitC then
      some ((strVal I : ℚ) + (strVal F : ℚ) / 10 ^ F.length)
    else none
  | _ => none

/-- Python `float(token)` on the decimal subset used by the codec;
`none` models the `ValueError` on other inputs. -/
def pyParseFloat (s : PyStr) : Option ℚ :=
  match s with
  | [] => none
  | c :: rest =>
    if c = '-' then (parseUFloat rest).map (fun q => -q)
    else if c = '+' then parseUFloat rest
    else parseUFloat (c :: rest)

/-- Python `'{:.2f}'.format(x)`: the value rounded to two decimal places
and rendered with exactly two fractional digits. -/
def fmt2 (q : ℚ) : PyStr :=
  let s : Int := round (q * 100)
  let a : Nat := s.natAbs
  let body : List Char :=
    natToStr (a / 100) ++ '.' :: digitChar (a % 100 / 10) :: [digitChar (a % 10)]
  if s < 0 then '-' :: body else body

/-- Python `int(x)` on a rational (truncation toward zero). -/
def ratTrunc (q : ℚ) : Int := if q < 0 then ⌈q⌉ else ⌊q⌋

/-- Values that can sit in a decoded or to-be-encoded command dictionary:
Python bool, int, float (as exact rational), str, or the list of error
codes stored under `'ERR'`. -/
inductive PyVal where
  | pBool (b : Bool)
  | pInt (n : Int)
  | pFloat (q : ℚ)
  | pStr (s : PyStr)
  | pList (l : List PyStr)
deriving DecidableEq, Repr

/-- One entry of `CommsFuncs.cmd_dict`: the declared value type together
with its accepted domain (`(type, range)` tuples in the source).  Bool
entries carry no usable domain (`(bool, 1)` or `(bool, [0, 1])` in the
source; the decoder never consults it). -/
inductive CmdSpec where
  | sStr (allowed : List PyStr)
  | sInt (lo hi : Int)
  | sFloat (lo hi : ℚ)
  | sBool
deriving DecidableEq, Repr

/-- The identity tags accepted for `'IDN'`. -/
def idnTags : List PyStr :=
  [pstr "CM1", pstr "CM2", pstr "SPE", pstr "EXN", pstr "MAS", pstr "NUL"]

/-- The destination tags accepted for `'DST'`. -/
def dstTags : List PyStr :=
  [pstr "CM1", pstr "CM2", pstr "SPE", pstr "EXN", pstr "MAS"]

/-- `CommsFuncs.cmd_dict` without the reflexive `'ERR'` entry.  Numeric
domains are copied from the source (`RWC` uses `CameraSpecs().pix_num_y =
486`, `PXS` uses `SpecSpecs().pix_num = 2048`). -/
def cmd_dict_base : List (PyStr × CmdSpec) :=
  [ (pstr "IDN", .sStr idnTags)
  , (pstr "DST", .sStr dstTags)
  , (pstr "SSA", .sInt 1 6000001)
  , (pstr "SSB", .sInt 1 6000001)
  , (pstr "SSS", .sInt 1 10001)
  , (pstr "FRC", .sFloat 0 1)
  , (pstr "FRS", .sFloat 0 10)
  , (pstr "ATA", .sBool)
  , (pstr "ATB", .sBool)
  , (pstr "ATS", .sBool)
  , (pstr "CAD", .sInt 0 20)
  , (pstr "SMN", .sFloat 0 (9/10))
  , (pstr "SMX", .sFloat (1/10) 1)
  , (pstr "PXC", .sInt 0 10000)
  , (pstr "RWC", .sInt (-486) 486)
  , (pstr "PXS", .sInt 0 2048)
  , (pstr "WMN", .sInt 300 400)
  , (pstr "WMX", .sInt 300 400)
  , (pstr "SNS", .sFloat 0 (9/10))
  , (pstr "SXS", .sFloat (1/10) 1)
  , (pstr "TPA", .sStr [])
  , (pstr "TPB", .sStr [])
  , (pstr "TPS", .sStr [])
  , (pstr "DKC", .sBool)
  , (pstr "DFC", .sBool)
  , (pstr "DKS", .sBool)
  , (pstr "DFS", .sBool)
  , (pstr "SPC", .sBool)
  , (pstr "SPS", .sBool)
  , (pstr "STC", .sBool)
  , (pstr "STS", .sBool)
  , (pstr "EXT", .sBool)
  , (pstr "DXT", .sBool)
  , (pstr "RST", .sBool)
  , (pstr "LOG", .sInt 0 5)
  , (pstr "HLO", .sBool)
  , (pstr "HLA", .sBool)
  , (pstr "HLB", .sBool)
  , (pstr "HLS", .sBool)
  , (pstr "HLM", .sBool)
  , (pstr "GBY", .sInt 0 65535)
  , (pstr "SAV", .sBool)
  , (pstr "NIA", .sStr [])
  , (pstr "NIB", .sStr [])
  , (pstr "NMA", .sStr [])
  , (pstr "NMB", .sStr [])
  , (pstr "NIS", .sStr [])
  , (pstr "CLI", .sBool)
  , (pstr "MSG", .sStr [])
  ]

/-- The `'ERR'` key. -/
def errK : PyStr := pstr "ERR"

/-- The full command schema: `cmd_dict` plus the reflexive error entry
`cmd_dict['ERR'] = (str, list(cmd_dict.keys()))`. -/
def cmd_dict : List (PyStr × CmdSpec) :=
  cmd_dict_base ++ [(errK, .sStr (cmd_dict_base.map Prod.fst))]

/-- Schema lookup (`key in self.cmd_dict` / `self.cmd_dict[key]`). -/
def schemaLookup (k : PyStr) : Option CmdSpec :=
  (cmd_dict.find? (fun p => p.1 == k)).map Prod.snd

/-- A Python dict as an association list (insertion order, unique keys). -/
abbrev PyDict := List (PyStr × PyVal)

/-- Dict lookup: value at the first (unique) occurrence of the key. -/
def dget : PyDict → PyStr → Option PyVal
  | [], _ => none
  | (k', v') :: rest, k => if k' == k then some v' else dget rest k

/-- Dict assignment `d[k] = v`: overwrite in place, else append. -/
def dset : PyDict → PyStr → PyVal → PyDict
  | [], k, v => [(k, v)]
  | (k', v') :: rest, k, v =>
    if k' == k then (k', v) :: rest else (k', v') :: dset rest k v

/-- Dict deletion `del d[k]` (removes the first occurrence of the key). -/
def derase : PyDict → PyStr → PyDict
  | [], _ => []
  | (k', v') :: rest, k =>
    if k' == k then rest else (k', v') :: derase rest k

/-- `SendRecvSpecs.end_str`: the frame terminator `"END" + '\r\n'`. -/
def end_str : PyStr := pstr "END\r\n"

/-- Rendering of one value by `encode_comms`, driven by the declared type
in the schema: bool/int via `str(int(v))`, float via `'{:.2f}'.format(v)`,
str via `'{}'.format(v)`.  `none` models a raised exception (`int` of a
non-numeric string) or a value/type pairing whose Python rendering
(`repr` of floats or lists) is outside this model; no claim exercises
those pairings. -/
def encodeVal : CmdSpec → PyVal → Option PyStr
  | .sBool, .pBool b => some (if b then pstr "1" else pstr "0")
  | .sBool, .pInt n => some (intToStr n)
  | .sBool, .pFloat q => some (intToStr (ratTrunc q))
  | .sBool, .pStr s => (pyParseInt s).map intToStr
  | .sBool, .pList _ => none
  | .sInt _ _, .pBool b => some (if b then pstr "1" else pstr "0")
  | .sInt _ _, .pInt n => some (intToStr n)
  | .sInt _ _, .pFloat q => some (intToStr (ratTrunc q))
  | .sInt _ _, .pStr s => (pyParseInt s).map intToStr
  | .sInt _ _, .pList _ => none
  | .sFloat _ _, .pBool b => some (fmt2 (if b then 1 else 0))
  | .sFloat _ _, .pInt n => some (fmt2 (n : ℚ))
  | .sFloat _ _, .pFloat q => some (fmt2 q)
  | .sFloat _ _, .pStr _ => none
  | .sFloat _ _, .pList _ => none
  | .sStr _, .pStr s => some s
  | .sStr _, _ => none

/-- `SocketMeths.encode_comms`: for each key of the message present in the
schema append `key + ' ' + value + ' '`, then the terminator; keys not in
the schema are silently ignored. -/
def encode_comms : PyDict → Option PyStr
  | [] => some end_str
  | (k, v) :: rest =>
    match schemaLookup k with
    | none => encode_comms rest
    | some spec =>
      match encodeVal spec v with
      | none => none
      | some tok =>
        match encode_comms rest with
        | none => none
        | some tail => some (k ++ ' ' :: tok ++ ' ' :: tail)

/-- Validation of one value token in `decode_comms`.  `Except.error`
models an uncaught `ValueError` from `int()`/`float()`; `Except.ok none`
is a recognised-but-invalid value (out of range, bad bool token, string
outside a non-empty allowed set); `Except.ok (some v)` is a valid value. -/
def checkTok : CmdSpec → PyStr → Except Unit (Option PyVal)
  | .sBool, tok =>
    if tok = pstr "1" || tok = pstr "0" then
      .ok (some (.pBool (tok = pstr "1")))
    else .ok none
  | .sStr allowed, tok =>
    if allowed.length = 0 then .ok (some (.pStr tok))
    else if allowed.contains tok then .ok (some (.pStr tok)) else .ok none
  | .sInt lo hi, tok =>
    match pyParseInt tok with
    | none => .error ()
    | some n => if n < lo || n > hi then .ok none else .ok (some (.pInt n))
  | .sFloat lo hi, tok =>
    match pyParseFloat tok with
    | none => .error ()
    | some q => if q < lo || q > hi then .ok none else .ok (some (.pFloat q))

/-- The guarded error append of `decode_comms`:
`if return_errors and isinstance(cmd_ret['ERR'], list): append`. -/
def errAppend (flag : Bool) (code : PyStr) (d : PyDict) : PyDict :=
  if flag then
    match dget d errK with
    | some (.pList l) => dset d errK (.pList (l ++ [code]))
    | _ => d
  else d

/-- One iteration of the token loop of `decode_comms`: token `t` (with
lookahead `next`) is examined as a potential key; a token whose immediate
predecessor is the literal `'ERR'` is skipped, unknown keys are ignored,
invalid values go to the error list (when reporting), valid values are
assigned. -/
def decodeStep (flag : Bool) (prev : Option PyStr) (t next : PyStr)
    (d : PyDict) : Except Unit PyDict :=
  if prev = some errK then .ok d
  else
    match schemaLookup t with
    | none => .ok d
    | some spec =>
      match checkTok spec next with
      | .error e => .error e
      | .ok none => .ok (errAppend flag t d)
      | .ok (some v) => .ok (dset d t v)

/-- The token loop of `decode_comms`
(`for i in range(len(mess_list)-1)`): every token that has a successor is
processed by `decodeStep`. -/
def decodeLoop (flag : Bool) : Option PyStr → List PyStr → PyDict →
    Except Unit PyDict
  | prev, t :: next :: rest, d =>
    match decodeStep flag prev t next d with
    | .error e => .error e
    | .ok d1 => decodeLoop flag (some t) (next :: rest) d1
  | _, _, d => .ok d

/-- `SocketMeths.decode_comms`.  `return_errors` is the caller's flag and
`isServer` tells whether the decoding object is a `SocketServer` (line 445
`return_errors = return_errors or isinstance(self, SocketServer)`).  The
`'ERR'` entry is deleted at the end when it is still the empty list or
when error reporting is off. -/
def decode_comms (message : PyStr) (return_errors isServer : Bool) :
    Except Unit PyDict :=
  let flag := return_errors || isServer
  match decodeLoop flag none (splitWs message) [(errK, .pList [])] with
  | .error e => .error e
  | .ok d =>
    let emptyList : Bool :=
      match dget d errK with
      | some (.pList l) => l.length == 0
      | _ => false
    if emptyList || !flag then .ok (derase d errK) else .ok d

instance {α : Type} [DecidableEq α] : DecidableEq (Except Unit α) := fun a b =>
  match a, b with
  | .ok x, .ok y =>
    if h : x = y then isTrue (by rw [h])
    else isFalse (by intro hh; cases hh; exact h rfl)
  | .ok _, .error _ => isFalse (by intro hh; cases hh)
  | .error _, .ok _ => isFalse (by intro hh; cases hh)
  | .error x, .error y => isTrue (by cases x; cases y; rfl)

/-- The frame-extraction step of `recv_comms`:
`if end_str in buff`, return the decoded prefix before the first
terminator and keep everything after it in the buffer. -/
def recvStep (buff : PyStr) : Option (PyStr × PyStr) :=
  match findSub end_str buff with
  | some i => some (buff.take i, buff.drop (i + end_str.length))
  | none => none

/-- Result of one `recv_comms` call: a framed message, the empty return
after the five-attempt poll budget, or `ConnectionResetError` on a
zero-length read. -/
inductive RecvOut where
  | msg (s : PyStr)
  | timedOut
  | reset
deriving DecidableEq, Repr

/-- `SocketMeths.recv_comms`, embedded over the object's shared buffer
(`self.data_buff`) and the stream of byte chunks the polled connection
delivers on successive seconds (`[]` head being a peer-closed read is
modelled by an explicit empty chunk; an exhausted stream models a second
in which `select` reports nothing ready).  Returns the result, the new
buffer, and the chunks not consumed.  `recvAttempt` is the body of one
iteration of the poll loop; `cont` is the continuation to the next
iteration. -/
def recvAttempt (buff : PyStr) (chunks : List PyStr)
    (cont : PyStr → List PyStr → RecvOut × PyStr × List PyStr) :
    RecvOut × PyStr × List PyStr :=
  match recvStep buff with
  | some (m, b') => (.msg m, b', chunks)
  | none =>
    match chunks with
    | [] => cont buff []
    | ch :: rest =>
      if ch = [] then (.reset, buff, rest)
      else
        match recvStep (buff ++ ch) with
        | some (m, b') => (.msg m, b', rest)
        | none => cont (buff ++ ch) rest

def recvIter : Nat → PyStr → List PyStr → RecvOut × PyStr × List PyStr
  | 0, buff, chunks => (.timedOut, buff, chunks)
  | fuel + 1, buff, chunks => recvAttempt buff chunks (recvIter fuel)

/-- `recv_comms` runs the poll loop for at most five one-second attempts. -/
def recv_comms (buff : PyStr) (chunks : List PyStr) :
    RecvOut × PyStr × List PyStr :=
  recvIter 5 buff chunks

/-- `SocketServer` state as seen by `send_to_all`: the external connection
handles (`self.connections`) and the `'IDN'` tags of the internal command
handlers (`self.internal_connections`, each a `CommsCommandHandler` with
its queue). -/
structure SendState where
  connections : List Nat
  internal_connections : List PyStr

/-- Python `"EXN" in cmd["DST"]` / `conn.id["IDN"] in cmd["DST"]`:
substring containment. -/
def containsSub (pat s : PyStr) : Bool := (findSub pat s).isSome

/-- `"DST" in cmd` is false. -/
def noDst (cmd : PyDict) : Bool := dget cmd (pstr "DST") == none

/-- The destination string contains `tag` (false when `DST` is absent or
holds a non-string; the schema types `DST` as a string). -/
def dstContains (tag : PyStr) (cmd : PyDict) : Bool :=
  match dget cmd (pstr "DST") with
  | some (.pStr d) => containsSub tag d
  | _ => false

/-- Python `"IDN" in cmd and cmd["IDN"] == tag`. -/
def idnIs (tag : PyStr) (cmd : PyDict) : Bool :=
  dget cmd (pstr "IDN") == some (.pStr tag)

/-- The external-delivery guard of `send_to_all` (lines 1534-1536):
`("DST" not in cmd or ("DST" in cmd and "EXN" in cmd["DST"])) and
("IDN" not in cmd or not cmd["IDN"] == "EXN")`. -/
def extSendCond (cmd : PyDict) : Bool :=
  (noDst cmd || dstContains (pstr "EXN") cmd) && !idnIs (pstr "EXN") cmd

/-- The internal-delivery guard of `send_to_all` (lines 1546-1548):
`("DST" not in cmd or conn.id["IDN"] in cmd["DST"]) and
("IDN" not in cmd or not cmd["IDN"] == conn.id["IDN"])`. -/
def intSendCond (tag : PyStr) (cmd : PyDict) : Bool :=
  (noDst cmd || dstContains tag cmd) && !idnIs tag cmd

/-- `SocketServer.send_to_all`: the external connections written to and
the internal role queues the command set is put on.  (The
`BrokenPipeError` path, which needs a failing transport, is outside this
pure model.) -/
def send_to_all (st : SendState) (cmd : PyDict) :
    List Nat × List (PyStr × PyDict) :=
  ((if extSendCond cmd then st.connections else []),
   (st.internal_connections.filter (fun t => intSendCond t cmd)).map
     (fun t => (t, cmd)))

/-- The Python exception kinds distinguished by the dispatcher loop of
`CommsCommandHandler._handle_commands`. -/
inductive ExcKind where
  | attrError
  | typeErrorPositional
  | typeErrorOther
  | valueError
deriving DecidableEq, Repr

/-- Summary of one handler-method call: it either returns or raises. -/
inductive HOutcome where
  | ok
  | raises (e : ExcKind)
deriving DecidableEq, Repr

/-- The per-command-set body of `CommsCommandHandler._handle_commands`
(lines 202-220).  `handlers k = none` models `getattr` raising
`AttributeError` for a missing method; `legacy k` is the outcome of the
one-argument compatibility call made when a handler raises a
`TypeError` mentioning "positional argument" (that retry runs inside the
`except TypeError` block, so anything it raises propagates).  Returns the
codes whose handler ran to completion, in order, and the exception (if
any) that escaped the loop. -/
def handle_commands (handlers : PyStr → Option HOutcome)
    (legacy : PyStr → HOutcome) :
    List (PyStr × PyVal) → List PyStr × Option ExcKind
  | [] => ([], none)
  | (k, _) :: rest =>
    match handlers k with
    | none => handle_commands handlers legacy rest
    | some .ok =>
      let r := handle_commands handlers legacy rest
      (k :: r.1, r.2)
    | some (.raises .attrError) => handle_commands handlers legacy rest
    | some (.raises .typeErrorPositional) =>
      match legacy k with
      | .ok =>
        let r := handle_commands handlers legacy rest
        (k :: r.1, r.2)
      | .raises e' => ([], some e')
    | some (.raises .typeErrorOther) => ([], some .typeErrorOther)
    | some (.raises .valueError) => ([], some .valueError)

/-- Python errors surfaced by the connection-closing model. -/
inductive PyErr where
  | attrError
deriving DecidableEq, Repr

/-- `SocketServer` state as seen by `close_connection`: the connection
list (socket handle with the `accept()` address tuple), the
`(ip, remote port)` registry `conn_dict` (handle and handshake id), and
each socket's `getpeername()` result (`none` models the `OSError` of an
already-closed socket). -/
structure SrvState where
  connections : List (Nat × (PyStr × Nat))
  conn_dict : List ((PyStr × Nat) × (Nat × PyStr))
  peername : Nat → Option (PyStr × Nat)

/-- `SocketServer.close_connection(connection=c)`.  When the connection is
found in the list the branch immediately calls `networkLogging.infp(...)`
(source line 1446) — `Logger` has no attribute `infp`, so an
`AttributeError` is raised before anything is shut down or removed; the
rest of that branch is unreachable.  When the connection is not in the
list the loop falls through, `ip`/`remote_port` stay `None`, and the
method logs a warning and returns with the state untouched. -/
def close_connection_by_conn (st : SrvState) (c : Nat) :
    Except PyErr SrvState :=
  match st.connections.findIdx? (fun e => e.1 == c) with
  | some _ => .error .attrError
  | none => .ok st

/-- Erase the first registry entry with the given `(ip, remote port)` key
(`del self.conn_dict[(ip, remote_port)]`). -/
def connDictErase (d : List ((PyStr × Nat) × (Nat × PyStr)))
    (key : PyStr × Nat) : List ((PyStr × Nat) × (Nat × PyStr)) :=
  match d with
  | [] => []
  | e :: rest => if e.1 == key then rest else e :: connDictErase rest key

/-- `SocketServer.close_connection(ip=...)` (lines 1467-1491, which use
the correctly spelled logger).  Finds the first connection whose address
tuple contains `ip`, reads `getpeername()` (tolerating `OSError` from an
already-closed socket, in which case `remote_port` stays `None`), shuts
the socket down, deletes the list entry, and — only when both `ip` and
`remote_port` are known — deletes the `(ip, remote_port)` registry
entry. -/
def close_connection_by_ip (st : SrvState) (ip : PyStr) : SrvState :=
  match st.connections.findIdx? (fun e => e.2.1 == ip) with
  | none => st
  | some i =>
    match st.connections.get? i with
    | none => st
    | some entry =>
      let handle := entry.1
      let rp := (st.peername handle).map Prod.snd
      let conns' := st.connections.eraseIdx i
      match rp with
      | none => { st with connections := conns' }
      | some p =>
        { connections := conns'
          conn_dict := connDictErase st.conn_dict (ip, p)
          peername := fun h => if h = handle then none else st.peername h }

/-- `dict | dict` (Python 3.9 merge, right operand wins). -/
def dmerge (d1 d2 : PyDict) : PyDict :=
  d2.foldl (fun acc p => dset acc p.1 p.2) d1

/-- `CommsCommandHandler.send_tagged_comms`: the emitted command set is
`self.id | comm`, i.e. the handler's identity merged under the message. -/
def tagWith (idTag : PyStr) (comm : PyDict) : PyDict :=
  dmerge [(pstr "IDN", .pStr idTag)] comm

/-- Observable events of `MasterComms.EXT`. -/
inductive MEvent where
  | broadcast (cmd : PyDict)
  | sleep (secs : Nat)
  | socket_closed
deriving DecidableEq, Repr

/-- The `GBY` broadcast `MasterComms.EXT` emits
(`self.send_tagged_comms({'GBY': True})` with `self.id = {'IDN': 'MAS'}`). -/
def gbyMsg : PyDict := tagWith (pstr "MAS") [(pstr "GBY", .pBool true)]

/-- The close loop of `MasterComms.EXT`:
`for conn in self.socket.connections[:]:
self.socket.close_connection(connection=conn[0])`.  Each call on a
present connection raises (the `infp` typo), which aborts the loop. -/
def closeAllConns : SrvState → List Nat → Option PyErr
  | _, [] => none
  | st, c :: cs =>
    match close_connection_by_conn st c with
    | .error e => some e
    | .ok st' => closeAllConns st' cs

/-- `MasterComms.EXT` as an event trace, paired with the exception (if
any) that escapes it.  With `value` false it replies `{'ERR': 'EXT'}` and
returns; with `value` true it sets its stop event, broadcasts the `GBY`
goodbye, sleeps three seconds, closes the remaining connections, closes
the listening socket, then (untraced here) polls the `ext_connections`
worker flags under a wall-clock timeout. -/
def masterEXT (st : SrvState) (value : Bool) : List MEvent × Option PyErr :=
  if !value then
    ([.broadcast (tagWith (pstr "MAS") [(errK, .pStr (pstr "EXT"))])], none)
  else
    match closeAllConns st (st.connections.map Prod.fst) with
    | some e => ([.broadcast gbyMsg, .sleep 3], some e)
    | none => ([.broadcast gbyMsg, .sleep 3, .socket_closed], none)

/-- Camera state read by the `CamComms` handlers. -/
structure CamDev where
  continuous_capture : Bool

/-- `CamComms.DKC`: on a true value, stops continuous capture if needed,
requests the dark sequence, acknowledges with `{'DKC': 1}`, waits for the
dark capture to run to completion (the waits are time-based and modelled
as completing), then flags `{'DFC': 1}`; on a false value it replies a
single error.  Returns the capture-queue puts and the
`send_tagged_comms` emissions, in order. -/
def CamComms_DKC (camIdn : PyStr) (cam : CamDev) (value : Bool)
    (src : PyStr) : List PyDict × List PyDict :=
  if value then
    ((if cam.continuous_capture then [[(pstr "exit_cont", .pBool true)]] else [])
       ++ [[(pstr "dark_seq", .pBool true)]],
     [tagWith camIdn [(pstr "DKC", .pInt 1), (pstr "DST", .pStr src)],
      tagWith camIdn [(pstr "DFC", .pInt 1)]])
  else
    ([], [tagWith camIdn [(errK, .pStr (pstr "DKC"))]])

/-- `CamComms.SPC`: puts a stop command on the capture queue and replies
`{'SPC': 1}`, or replies an error when the value is false. -/
def CamComms_SPC (camIdn : PyStr) (value : Bool) (src : PyStr) :
    List PyDict × List PyDict :=
  if value then
    ([[(pstr "exit_cont", .pBool true)]],
     [tagWith camIdn [(pstr "SPC", .pInt 1), (pstr "DST", .pStr src)]])
  else
    ([], [tagWith camIdn [(errK, .pStr (pstr "SPC")), (pstr "DST", .pStr src)]])

/-- `SpecComms.TPS` (lines 1197-1199): puts `{'type': value}` on the
spectrometer capture queue and sends nothing back. -/
def SpecComms_TPS (value : PyVal) (_src : PyStr) :
    List PyDict × List PyDict :=
  ([[(pstr "type", value)]], [])

/-- Close-type events of the `MasterComms.EXT` trace. -/
def isCloseEv : MEvent → Bool
  | .socket_closed => true
  | _ => false

/-- The error list currently held under `'ERR'` (empty when the key is
absent or holds a non-list). -/
def errTokens (d : PyDict) : List PyStr :=
  match dget d errK with
  | some (.pList l) => l
  | _ => []

/-- The keys of a dict are pairwise distinct (true of every Python dict;
preserved by all the dict operations used here). -/
def keysND (d : PyDict) : Prop := (d.map Prod.fst).Nodup

/-- Every schema key begins with an uppercase letter. -/
def headUpper : PyStr → Bool
  | [] => false
  | c :: _ => 65 ≤ c.toNat && c.toNat ≤ 90

/-- A string value that survives the wire format unchanged: non-empty,
free of whitespace, and not itself a schema code. -/
def tokenLegal (s : PyStr) : Bool :=
  !s.isEmpty && s.all (fun c => !isWsC c) && (schemaLookup s).isNone

/-- The float domains of the schema are exact multiples of `1/100`, so
2-decimal rounding cannot push an in-domain value out of its domain. -/
def floatBoundsOK : CmdSpec → Prop
  | .sFloat lo hi => (∃ a : ℤ, lo = (a : ℚ) / 100) ∧ (∃ b : ℤ, hi = (b : ℚ) / 100)
  | _ => True

/-- Value well-formedness for the amended round-trip claim: the value
matches the declared type and domain, and string values are single
legal tokens. -/
def valOkAmended : CmdSpec → PyVal → Bool
  | .sBool, .pBool _ => true
  | .sInt lo hi, .pInt n => decide (lo ≤ n) && decide (n ≤ hi)
  | .sFloat lo hi, .pFloat q => decide (lo ≤ q) && decide (q ≤ hi)
  | .sStr allowed, .pStr s =>
    tokenLegal s && (allowed.isEmpty || allowed.contains s)
  | _, _ => false

/-- The value the decoder recovers: floats come back rounded to two
decimal places, everything else is exact. -/
def decodedOf : PyVal → PyVal
  | .pFloat q => .pFloat ((round (q * 100) : ℚ) / 100)
  | .pBool b => .pBool b
  | .pInt n => .pInt n
  | .pStr s => .pStr s
  | .pList l => .pList l

/-- C10: the decoder treats every token with a successor as a potential
key (skipping only the token right after a literal `'ERR'`), so a value
token that is itself a schema code is parsed again as a key: decoding
`"TPA HLO 1"` yields both `TPA = 'HLO'` and `HLO = true`. -/
theorem C10_value_token_reparsed_as_key :
    decode_comms (pstr "TPA HLO 1") false false =
      .ok [(pstr "TPA", .pStr (pstr "HLO")), (pstr "HLO", .pBool true)] := by
  decide

/-- C9: all connections served by one `SocketServer` share the object's
single `data_buff`.  Connection A delivers two frames in one chunk; the
first `recv_comms` call (polling A) returns the first frame and leaves
the second buffered; a later `recv_comms` call made with connection B
returns A's buffered frame without consuming any of B's bytes. -/
theorem C9_shared_buffer_cross_connection_leak :
    recv_comms [] [pstr "HLO 1 END\r\nEXT 1 END\r\n"] =
      (.msg (pstr "HLO 1 "), pstr "EXT 1 END\r\n", []) ∧
    recv_comms (pstr "EXT 1 END\r\n") [pstr "MSG hi END\r\n"] =
      (.msg (pstr "EXT 1 "), [], [pstr "MSG hi END\r\n"]) := by
  constructor <;> decide

theorem noDst_iff (cmd : PyDict) :
    noDst cmd = true ↔ dget cmd (pstr "DST") = none := by
  simp [noDst]

theorem dstContains_iff (tag : PyStr) (cmd : PyDict) :
    dstContains tag cmd = true ↔
      ∃ d, dget cmd (pstr "DST") = some (.pStr d) ∧
        containsSub tag d = true := by
  unfold dstContains
  rcases h : dget cmd (pstr "DST") with _ | v
  · simp
  · cases v <;> simp

theorem idnIs_iff (tag : PyStr) (cmd : PyDict) :
    idnIs tag cmd = true ↔ dget cmd (pstr "IDN") = some (.pStr tag) := by
  simp [idnIs]

/-- The shared shape of the two delivery guards in `send_to_all`. -/
theorem sendGuard_iff (tag : PyStr) (cmd : PyDict) :
    ((noDst cmd || dstContains tag cmd) && !idnIs tag cmd) = true ↔
      (dget cmd (pstr "DST") = none ∨
        ∃ d, dget cmd (pstr "DST") = some (.pStr d) ∧
          containsSub tag d = true) ∧
      dget cmd (pstr "IDN") ≠ some (.pStr tag) := by
  rw [Bool.and_eq_true, Bool.or_eq_true, Bool.not_eq_true']
  rw [noDst_iff, dstContains_iff]
  constructor
  · rintro ⟨h1, h2⟩
    refine ⟨h1, fun hc => ?_⟩
    rw [← idnIs_iff] at hc
    rw [hc] at h2
    cases h2
  · rintro ⟨h1, h2⟩
    refine ⟨h1, ?_⟩
    by_cases hb : idnIs tag cmd = true
    · exact absurd ((idnIs_iff tag cmd).1 hb) h2
    · simpa using hb

theorem extSendCond_iff (cmd : PyDict) :
    extSendCond cmd = true ↔
      (dget cmd (pstr "DST") = none ∨
        ∃ d, dget cmd (pstr "DST") = some (.pStr d) ∧
          containsSub (pstr "EXN") d = true) ∧
      dget cmd (pstr "IDN") ≠ some (.pStr (pstr "EXN")) :=
  sendGuard_iff (pstr "EXN") cmd

theorem intSendCond_iff (tag : PyStr) (cmd : PyDict) :
    intSendCond tag cmd = true ↔
      (dget cmd (pstr "DST") = none ∨
        ∃ d, dget cmd (pstr "DST") = some (.pStr d) ∧
          containsSub tag d = true) ∧
      dget cmd (pstr "IDN") ≠ some (.pStr tag) :=
  sendGuard_iff tag cmd

/-- C2 counterexample: a command set with no destination field whose
declared source is the external tag `'EXN'` is written to no external
connection, although the claim's iff ("written iff no destination or
destination contains the external tag") demands delivery. -/
theorem C2_counterexample :
    ¬ ((1 ∈ (send_to_all ⟨[1], [pstr "MAS"]⟩
            [(pstr "IDN", .pStr (pstr "EXN")), (pstr "HLO", .pBool true)]).1) ↔
        (noDst [(pstr "IDN", .pStr (pstr "EXN")), (pstr "HLO", .pBool true)] = true ∨
          dstContains (pstr "EXN")
            [(pstr "IDN", .pStr (pstr "EXN")), (pstr "HLO", .pBool true)] = true)) := by
  decide

/-- C2 (amended): `send_to_all` writes to an external connection iff the
destination is absent or contains `'EXN'` AND the declared source is not
`'EXN'`; it enqueues onto an internal role's queue iff the destination is
absent or contains that role's tag and the declared source is not that
tag; hence no internal role ever receives a command whose declared
source equals its own identity. -/
theorem C2_sendToAll_routing (st : SendState) (cmd : PyDict) (c : Nat)
    (t : PyStr) :
    (c ∈ (send_to_all st cmd).1 ↔
      c ∈ st.connections ∧
        (dget cmd (pstr "DST") = none ∨
          ∃ d, dget cmd (pstr "DST") = some (.pStr d) ∧
            containsSub (pstr "EXN") d = true) ∧
        dget cmd (pstr "IDN") ≠ some (.pStr (pstr "EXN"))) ∧
    ((t, cmd) ∈ (send_to_all st cmd).2 ↔
      t ∈ st.internal_connections ∧
        (dget cmd (pstr "DST") = none ∨
          ∃ d, dget cmd (pstr "DST") = some (.pStr d) ∧
            containsSub t d = true) ∧
        dget cmd (pstr "IDN") ≠ some (.pStr t)) ∧
    (∀ (t' : PyStr) (cmd' : PyDict), (t', cmd') ∈ (send_to_all st cmd).2 →
      dget cmd' (pstr "IDN") ≠ some (.pStr t')) := by
  refine ⟨?_, ?_, ?_⟩
  · by_cases h : extSendCond cmd = true
    · rw [extSendCond_iff] at h
      simp [send_to_all, extSendCond_iff, h]
    · have h' := h
      rw [extSendCond_iff] at h'
      simp only [send_to_all]
      rw [if_neg h]
      simp only [List.not_mem_nil, false_iff]
      rintro ⟨_, hrest⟩
      exact h' hrest
  · simp only [send_to_all, List.mem_map, List.mem_filter]
    constructor
    · rintro ⟨a, ⟨ha1, ha2⟩, heq⟩
      have hat : a = t := congrArg Prod.fst heq
      rw [hat] at ha1 ha2
      exact ⟨ha1, (intSendCond_iff t cmd).1 ha2⟩
    · rintro ⟨h1, h2⟩
      exact ⟨t, ⟨h1, (intSendCond_iff t cmd).2 h2⟩, rfl⟩
  · rintro t' cmd' hmem
    simp only [send_to_all, List.mem_map, List.mem_filter] at hmem
    obtain ⟨a, ⟨-, ha2⟩, heq⟩ := hmem
    have h1 : a = t' := congrArg Prod.fst heq
    have h2 : cmd = cmd' := congrArg Prod.snd heq
    rw [h1] at ha2
    rw [← h2]
    exact ((intSendCond_iff t' cmd).1 ha2).2

/-- Concrete instance of the amended C2 routing theorem: a command
destined to `'CM1'` from `'MAS'`, with roles `'CM1'` and `'SPE'`
registered internally. -/
theorem C2_sendToAll_routing_witness :
    ((pstr "CM1",
        [(pstr "IDN", PyVal.pStr (pstr "MAS")),
         (pstr "DST", PyVal.pStr (pstr "CM1")),
         (pstr "STC", PyVal.pBool true)]) ∈
      (send_to_all ⟨[7], [pstr "CM1", pstr "SPE"]⟩
        [(pstr "IDN", PyVal.pStr (pstr "MAS")),
         (pstr "DST", PyVal.pStr (pstr "CM1")),
         (pstr "STC", PyVal.pBool true)]).2 ↔
      pstr "CM1" ∈ [pstr "CM1", pstr "SPE"] ∧
        (dget [(pstr "IDN", PyVal.pStr (pstr "MAS")),
               (pstr "DST", PyVal.pStr (pstr "CM1")),
               (pstr "STC", PyVal.pBool true)] (pstr "DST") = none ∨
          ∃ d, dget [(pstr "IDN", PyVal.pStr (pstr "MAS")),
                     (pstr "DST", PyVal.pStr (pstr "CM1")),
                     (pstr "STC", PyVal.pBool true)] (pstr "DST") =
              some (.pStr d) ∧ containsSub (pstr "CM1") d = true) ∧
        dget [(pstr "IDN", PyVal.pStr (pstr "MAS")),
              (pstr "DST", PyVal.pStr (pstr "CM1")),
              (pstr "STC", PyVal.pBool true)] (pstr "IDN") ≠
          some (.pStr (pstr "CM1"))) :=
  (C2_sendToAll_routing ⟨[7], [pstr "CM1", pstr "SPE"]⟩
    [(pstr "IDN", PyVal.pStr (pstr "MAS")),
     (pstr "DST", PyVal.pStr (pstr "CM1")),
     (pstr "STC", PyVal.pBool true)] 7 (pstr "CM1")).2.1

/-- C5 counterexample: a handler raising an unexpected fault
(`ValueError`) on the first code aborts the dispatch of the whole command
set — the handler for the second code never runs, contrary to the claimed
per-code catch granularity. -/
theorem C5_counterexample :
    handle_commands
        (fun k => if k = pstr "SSA" then some (.raises .valueError)
                  else some .ok)
        (fun _ => .ok)
        [(pstr "SSA", .pInt 100), (pstr "HLO", .pBool true)] =
      ([], some .valueError) ∧
    ¬ pstr "HLO" ∈ (handle_commands
        (fun k => if k = pstr "SSA" then some (.raises .valueError)
                  else some .ok)
        (fun _ => .ok)
        [(pstr "SSA", .pInt 100), (pstr "HLO", .pBool true)]).1 := by
  constructor <;> decide

/-- C5 (amended): a missing handler method, or a handler raising
`AttributeError`, is skipped and the remaining codes still execute; but a
handler fault other than `AttributeError` (and other than the legacy
positional-`TypeError` retry) is not caught per code — it escapes the
loop and the remaining codes of the same command set do not execute. -/
theorem C5_dispatch_fault_granularity :
    (∀ (h : PyStr → Option HOutcome) (lg : PyStr → HOutcome)
        (l1 l2 : List (PyStr × PyVal)) (k : PyStr) (v : PyVal),
        h k = none →
        handle_commands h lg (l1 ++ (k, v) :: l2) =
          handle_commands h lg (l1 ++ l2)) ∧
    (∀ (h : PyStr → Option HOutcome) (lg : PyStr → HOutcome)
        (l1 l2 : List (PyStr × PyVal)) (k : PyStr) (v : PyVal),
        h k = some (.raises .attrError) →
        handle_commands h lg (l1 ++ (k, v) :: l2) =
          handle_commands h lg (l1 ++ l2)) ∧
    (∀ (h : PyStr → Option HOutcome) (lg : PyStr → HOutcome)
        (l2 : List (PyStr × PyVal)) (k : PyStr) (v : PyVal),
        h k = some (.raises .valueError) →
        handle_commands h lg ((k, v) :: l2) = ([], some .valueError)) := by
  refine ⟨?_, ?_, ?_⟩
  · intro h lg l1 l2 k v hk
    induction l1 with
    | nil => simp [handle_commands, hk]
    | cons hd tl ih =>
      obtain ⟨k', v'⟩ := hd
      simp only [List.cons_append, handle_commands, List.append_eq]
      rw [ih]
  · intro h lg l1 l2 k v hk
    induction l1 with
    | nil => simp [handle_commands, hk]
    | cons hd tl ih =>
      obtain ⟨k', v'⟩ := hd
      simp only [List.cons_append, handle_commands, List.append_eq]
      rw [ih]
  · intro h lg l2 k v hk
    simp [handle_commands, hk]

/-- Concrete instance of the amended C5 theorem: removing a key with no
handler does not change the dispatch outcome, and an uncaught fault
aborts immediately. -/
theorem C5_dispatch_fault_granularity_witness :
    handle_commands
        (fun k => if k = pstr "ZZZ" then none else some HOutcome.ok)
        (fun _ => HOutcome.ok)
        ([(pstr "HLO", PyVal.pBool true)] ++
          (pstr "ZZZ", PyVal.pBool true) :: [(pstr "EXT", PyVal.pBool false)]) =
      handle_commands
        (fun k => if k = pstr "ZZZ" then none else some HOutcome.ok)
        (fun _ => HOutcome.ok)
        ([(pstr "HLO", PyVal.pBool true)] ++ [(pstr "EXT", PyVal.pBool false)]) :=
  (C5_dispatch_fault_granularity.1
    (fun k => if k = pstr "ZZZ" then none else some HOutcome.ok)
    (fun _ => HOutcome.ok) [(pstr "HLO", PyVal.pBool true)]
    [(pstr "EXT", PyVal.pBool false)] (pstr "ZZZ") (PyVal.pBool true)
    (by decide))

theorem findIdx?_go_none {α : Type} (p : α → Bool) (l : List α)
    (h : ∀ x ∈ l, p x = false) : ∀ i, List.findIdx? p l i = none := by
  induction l with
  | nil => intro i; rfl
  | cons a t ih =>
    intro i
    rw [List.findIdx?_cons, h a (by simp)]
    simpa using ih (fun x hx => h x (by simp [hx])) (i + 1)

theorem findIdx?_none_of_all {α : Type} (p : α → Bool) (l : List α)
    (h : ∀ x ∈ l, p x = false) : l.findIdx? p = none :=
  findIdx?_go_none p l h 0

/-- C6: calling `close_connection` on a connection that has already been
closed (and hence removed from the connection list) is a no-op: no
exception is raised and neither the connection list nor the
`(ip, remote port)` registry loses another entry — whether the connection
is named by its socket object or by its ip address. -/
theorem C6_close_already_closed_noop :
    (∀ (st : SrvState) (c : Nat), (∀ e ∈ st.connections, e.1 ≠ c) →
        close_connection_by_conn st c = .ok st) ∧
    (∀ (st : SrvState) (ip : PyStr), (∀ e ∈ st.connections, e.2.1 ≠ ip) →
        close_connection_by_ip st ip = st) := by
  constructor
  · intro st c h
    unfold close_connection_by_conn
    rw [findIdx?_none_of_all _ _ (fun e he => by
      have := h e he
      simpa using this)]
  · intro st ip h
    unfold close_connection_by_ip
    rw [findIdx?_none_of_all _ _ (fun e he => by
      have := h e he
      simpa using this)]

/-- Concrete instance of C6: closing socket 7, which is absent from the
connection list, leaves the server state untouched and raises nothing. -/
theorem C6_close_already_closed_noop_witness :
    (∀ e ∈ ([(5, (pstr "192.168.1.2", 40000))] :
        List (Nat × (PyStr × Nat))), e.1 ≠ 7) ∧
    close_connection_by_conn
        ⟨[(5, (pstr "192.168.1.2", 40000))],
         [((pstr "192.168.1.2", 40000), (5, pstr "EXN"))], fun _ => none⟩ 7 =
      .ok ⟨[(5, (pstr "192.168.1.2", 40000))],
           [((pstr "192.168.1.2", 40000), (5, pstr "EXN"))], fun _ => none⟩ :=
  ⟨by decide,
   C6_close_already_closed_noop.1
     ⟨[(5, (pstr "192.168.1.2", 40000))],
      [((pstr "192.168.1.2", 40000), (5, pstr "EXN"))], fun _ => none⟩ 7
     (by decide)⟩

/-- C7 counterexample: the `SpecComms.TPS` handler executes (it enqueues
the requested spectrum type) yet emits zero replies through
`send_tagged_comms`, contradicting the claimed "exactly one reply". -/
theorem C7_counterexample :
    (SpecComms_TPS (.pStr (pstr "dark")) (pstr "EXN")).2 = [] ∧
    ¬ (SpecComms_TPS (.pStr (pstr "dark")) (pstr "EXN")).2.length = 1 := by
  constructor <;> decide

/-- C7 (amended): reply counts of the device-role handlers named by the
claim: `CamComms.SPC` always emits exactly one reply (value or error);
`CamComms.DKC` emits two on success (the `DKC` acknowledgement and the
`DFC` completion flag) and one error reply otherwise; `SpecComms.TPS`
emits none. -/
theorem C7_handler_reply_counts (idn : PyStr) (cam : CamDev) (v : Bool)
    (src : PyStr) (tv : PyVal) :
    (CamComms_SPC idn v src).2.length = 1 ∧
    (CamComms_DKC idn cam v src).2.length = (if v then 2 else 1) ∧
    (SpecComms_TPS tv src).2.length = 0 := by
  cases v <;> simp [CamComms_SPC, CamComms_DKC, SpecComms_TPS]

/-- Concrete instance of the amended C7 theorem at a successful `DKC`. -/
theorem C7_handler_reply_counts_witness :
    (CamComms_SPC (pstr "CM1") true (pstr "EXN")).2.length = 1 ∧
    (CamComms_DKC (pstr "CM1") ⟨true⟩ true (pstr "EXN")).2.length =
      (if true then 2 else 1) ∧
    (SpecComms_TPS (PyVal.pStr (pstr "dark")) (pstr "EXN")).2.length = 0 :=
  C7_handler_reply_counts (pstr "CM1") ⟨true⟩ true (pstr "EXN")
    (PyVal.pStr (pstr "dark"))

/-- C8: in every trace of `MasterComms.EXT` with value true, the `GBY`
goodbye broadcast is emitted strictly before any close event.  (In the
source, each `close_connection(connection=...)` call on a live connection
raises `AttributeError` from the `infp` typo, so no accepted connection
ever reaches its shutdown; the listening-socket close is the only close
event a trace can contain, and it comes after the broadcast.) -/
theorem C8_goodbye_broadcast_before_close (st : SrvState) (i : Nat)
    (e : MEvent) (hi : (masterEXT st true).1.get? i = some e)
    (hc : isCloseEv e = true) :
    ∃ j, j < i ∧ (masterEXT st true).1.get? j = some (.broadcast gbyMsg) := by
  refine ⟨0, ?_, ?_⟩
  · by_contra hlt
    have hi0 : i = 0 := by omega
    rw [hi0] at hi
    unfold masterEXT at hi
    rcases hcl : closeAllConns st (st.connections.map Prod.fst) with _ | er
    · rw [hcl] at hi
      simp at hi
      rw [← hi] at hc
      cases hc
    · rw [hcl] at hi
      simp at hi
      rw [← hi] at hc
      cases hc
  · unfold masterEXT
    rcases hcl : closeAllConns st (st.connections.map Prod.fst) with _ | er <;>
      simp

/-- Concrete instance of C8: with no live connections, `EXT(true)`
produces the trace broadcast-sleep-close, and the close at index 2 is
preceded by the goodbye broadcast at index 0. -/
theorem C8_goodbye_broadcast_before_close_witness :
    (masterEXT ⟨[], [], fun _ => none⟩ true).1.get? 2 =
      some MEvent.socket_closed ∧
    ∃ j, j < 2 ∧ (masterEXT ⟨[], [], fun _ => none⟩ true).1.get? j =
      some (.broadcast gbyMsg) :=
  ⟨by decide,
   C8_goodbye_broadcast_before_close ⟨[], [], fun _ => none⟩ 2
     MEvent.socket_closed (by decide) (by decide)⟩

theorem findSub_cons_none {pat : List Char} {c : Char} {t : List Char}
    (h : findSub pat (c :: t) = none) :
    pat.isPrefixOf (c :: t) = false ∧ findSub pat t = none := by
  unfold findSub at h
  by_cases hp : pat.isPrefixOf (c :: t)
  · rw [if_pos hp] at h
    cases h
  · rw [if_neg hp] at h
    refine ⟨?_, ?_⟩
    · cases hb : pat.isPrefixOf (c :: t)
      · rfl
      · exact absurd hb hp
    rcases hf : findSub pat t with _ | i
    · rfl
    · rw [hf] at h
      cases h

theorem findSub_here {pat tail : List Char} (hne : pat ≠ []) :
    findSub pat (pat ++ tail) = some 0 := by
  have hp : pat.isPrefixOf (pat ++ tail) = true := by
    rw [List.isPrefixOf_iff_prefix]
    exact List.prefix_append pat tail
  rcases hl : pat ++ tail with _ | ⟨c, t⟩
  · rcases pat with _ | ⟨a, b⟩
    · exact absurd rfl hne
    · cases hl
  · rw [hl] at hp
    unfold findSub
    rw [hp]
    simp

/-- The terminator `"END" + '\r\n'` has no nontrivial overlap with
itself: no proper suffix of it is also a proper prefix. -/
theorem end_str_no_overlap :
    ∀ k, 1 ≤ k → k ≤ 4 → end_str.drop k ≠ end_str.take (5 - k) := by
  intro k h1 h4
  interval_cases k <;> decide

/-- A buffer with no terminator occurrence followed by a terminator: the
first occurrence in the concatenation is exactly at the end of the
original buffer (by `end_str_no_overlap` the terminator cannot straddle
the boundary). -/
theorem findSub_append_end :
    ∀ (m tail : List Char), findSub end_str m = none →
      findSub end_str (m ++ end_str ++ tail) = some m.length := by
  intro m
  induction m with
  | nil =>
    intro tail _
    simpa using @findSub_here end_str tail (by decide)
  | cons c m' ih =>
    intro tail h
    obtain ⟨hpre, hrest⟩ := findSub_cons_none h
    rw [List.append_assoc, List.cons_append]
    have hnp : end_str.isPrefixOf (c :: (m' ++ (end_str ++ tail))) = false := by
      by_contra hcon
      have hpre2 : end_str <+: ((c :: m') ++ (end_str ++ tail)) := by
        rw [← List.isPrefixOf_iff_prefix, List.cons_append]
        simpa using hcon
      have htake : end_str = ((c :: m') ++ (end_str ++ tail)).take 5 := by
        have h0 := List.prefix_iff_eq_take.1 hpre2
        simpa using h0
      rw [List.take_append_eq_append_take] at htake
      by_cases hlen : 5 ≤ (c :: m').length
      · have hz : 5 - (c :: m').length = 0 := by omega
        rw [hz] at htake
        simp only [List.take_zero, List.append_nil] at htake
        have hpl : end_str <+: (c :: m') := by
          rw [htake]
          exact List.take_prefix 5 (c :: m')
        rw [← List.isPrefixOf_iff_prefix] at hpl
        rw [hpl] at hpre
        cases hpre
      · have hk1 : 1 ≤ (c :: m').length := by simp
        have hk4 : (c :: m').length ≤ 4 := by omega
        rw [List.take_of_length_le (show (c :: m').length ≤ 5 by omega)]
          at htake
        rw [List.take_append_eq_append_take] at htake
        have hz : 5 - (c :: m').length - end_str.length = 0 := by
          have h5 : end_str.length = 5 := by decide
          omega
        rw [hz] at htake
        simp only [List.take_zero, List.append_nil] at htake
        have hdrop : end_str.drop (c :: m').length =
            end_str.take (5 - (c :: m').length) := by
          conv_lhs => rw [htake]
          exact List.drop_left (c :: m') _
        exact end_str_no_overlap (c :: m').length hk1 hk4 hdrop
    unfold findSub
    rw [hnp]
    simp only [Bool.false_eq_true, if_false]
    have ih2 := ih tail hrest
    rw [List.append_assoc] at ih2
    rw [ih2]
    simp

theorem recvIter_succ_of_step {buff b : PyStr} {m : PyStr}
    (fuel : Nat) (chunks : List PyStr) (hstep : recvStep buff = some (m, b)) :
    recvIter (fuel + 1) buff chunks = (.msg m, b, chunks) := by
  show recvAttempt buff chunks (recvIter fuel) = _
  unfold recvAttempt
  rw [hstep]

/-- C4: when the terminator is in the buffer, `recv_comms` returns
exactly the text before its first occurrence and keeps every byte after
it; consequently two complete frames buffered back-to-back are returned
by two successive calls, in order, with nothing lost and nothing read
from the socket. -/
theorem C4_recv_framing :
    (∀ (buff : PyStr) (i : Nat) (chunks : List PyStr),
        findSub end_str buff = some i →
        recv_comms buff chunks =
          (.msg (buff.take i), buff.drop (i + end_str.length), chunks)) ∧
    (∀ (m1 m2 rest : PyStr) (chunks : List PyStr),
        findSub end_str m1 = none → findSub end_str m2 = none →
        recv_comms (m1 ++ end_str ++ m2 ++ end_str ++ rest) chunks =
          (.msg m1, m2 ++ end_str ++ rest, chunks) ∧
        recv_comms (m2 ++ end_str ++ rest) chunks =
          (.msg m2, rest, chunks)) := by
  have hstep : ∀ (buff : PyStr) (i : Nat), findSub end_str buff = some i →
      recvStep buff = some (buff.take i, buff.drop (i + end_str.length)) := by
    intro buff i hi
    unfold recvStep
    rw [hi]
  have hcall : ∀ (buff : PyStr) (i : Nat) (chunks : List PyStr),
      findSub end_str buff = some i →
      recv_comms buff chunks =
        (.msg (buff.take i), buff.drop (i + end_str.length), chunks) := by
    intro buff i chunks hi
    exact recvIter_succ_of_step 4 chunks (hstep buff i hi)
  refine ⟨hcall, ?_⟩
  intro m1 m2 rest chunks h1 h2
  have hfind1 : findSub end_str (m1 ++ end_str ++ (m2 ++ end_str ++ rest)) =
      some m1.length := findSub_append_end m1 (m2 ++ end_str ++ rest) h1
  have hfind2 : findSub end_str (m2 ++ end_str ++ rest) = some m2.length :=
    findSub_append_end m2 rest h2
  constructor
  · have hc := hcall (m1 ++ end_str ++ (m2 ++ end_str ++ rest)) m1.length
      chunks hfind1
    have htk : ((m1 ++ end_str) ++ (m2 ++ end_str ++ rest)).take m1.length =
        m1 := by
      rw [List.append_assoc]
      rw [List.take_append_eq_append_take]
      simp
    have hdk : ((m1 ++ end_str) ++ (m2 ++ end_str ++ rest)).drop
        (m1.length + end_str.length) = m2 ++ end_str ++ rest := by
      have hlen : (m1 ++ end_str).length = m1.length + end_str.length := by
        simp
      rw [← hlen]
      exact List.drop_left (m1 ++ end_str) (m2 ++ end_str ++ rest)
    rw [htk, hdk] at hc
    have hassoc : m1 ++ end_str ++ m2 ++ end_str ++ rest =
        m1 ++ end_str ++ (m2 ++ end_str ++ rest) := by
      simp [List.append_assoc]
    rw [hassoc]
    exact hc
  · have hc := hcall (m2 ++ end_str ++ rest) m2.length chunks hfind2
    have htk : ((m2 ++ end_str) ++ rest).take m2.length = m2 := by
      rw [List.append_assoc]
      rw [List.take_append_eq_append_take]
      simp
    have hdk : ((m2 ++ end_str) ++ rest).drop (m2.length + end_str.length) =
        rest := by
      have hlen : (m2 ++ end_str).length = m2.length + end_str.length := by
        simp
      rw [← hlen]
      exact List.drop_left (m2 ++ end_str) rest
    rw [htk, hdk] at hc
    exact hc

/-- Concrete instance of C4: two buffered frames are returned in order by
two successive calls. -/
theorem C4_recv_framing_witness :
    recv_comms (pstr "HLO 1 " ++ end_str ++ pstr "EXT 1 " ++ end_str ++ []) [] =
      (.msg (pstr "HLO 1 "), pstr "EXT 1 " ++ end_str ++ [], []) ∧
    recv_comms (pstr "EXT 1 " ++ end_str ++ []) [] =
      (.msg (pstr "EXT 1 "), [], []) :=
  C4_recv_framing.2 (pstr "HLO 1 ") (pstr "EXT 1 ") [] []
    (by decide) (by decide)

theorem dget_dset_self (d : PyDict) (k : PyStr) (v : PyVal) :
    dget (dset d k v) k = some v := by
  induction d with
  | nil => simp [dset, dget]
  | cons p rest ih =>
    obtain ⟨k0, v0⟩ := p
    by_cases h : (k0 == k) = true
    · simp [dset, h, dget]
    · simp only [dset, h, if_false, Bool.false_eq_true]
      simp only [dget, h, if_false, Bool.false_eq_true]
      exact ih

theorem dget_dset_ne (d : PyDict) (k k' : PyStr) (v : PyVal) (h : k' ≠ k) :
    dget (dset d k v) k' = dget d k' := by
  induction d with
  | nil =>
    simp only [dset, dget]
    rw [if_neg (by simpa using Ne.symm h)]
  | cons p rest ih =>
    obtain ⟨k0, v0⟩ := p
    by_cases h0 : (k0 == k) = true
    · have hk0 : k0 = k := by simpa using h0
      have hcond : ¬ (k0 == k') = true := by
        simp only [hk0, beq_iff_eq]
        exact Ne.symm h
      simp only [dset, h0, if_true, dget]
      rw [if_neg hcond, if_neg hcond]
    · simp only [dset, h0, if_false, Bool.false_eq_true, dget]
      by_cases h1 : (k0 == k') = true
      · simp [h1]
      · simp only [h1, if_false, Bool.false_eq_true]
        exact ih

theorem dget_none_of_not_mem_keys (d : PyDict) (k : PyStr)
    (h : k ∉ d.map Prod.fst) : dget d k = none := by
  induction d with
  | nil => rfl
  | cons p rest ih =>
    obtain ⟨k0, v0⟩ := p
    simp only [List.map_cons, List.mem_cons] at h
    push_neg at h
    simp only [dget]
    rw [if_neg (by simpa using Ne.symm h.1)]
    exact ih h.2

theorem mem_keys_dset (d : PyDict) (k k' : PyStr) (v : PyVal)
    (h : k' ∈ (dset d k v).map Prod.fst) :
    k' ∈ d.map Prod.fst ∨ k' = k := by
  induction d with
  | nil =>
    simp only [dset, List.map_cons, List.map_nil, List.mem_singleton] at h
    exact Or.inr h
  | cons p rest ih =>
    obtain ⟨k0, v0⟩ := p
    by_cases h0 : (k0 == k) = true
    · simp only [dset, h0, if_true, List.map_cons, List.mem_cons] at h
      simp only [List.map_cons, List.mem_cons]
      rcases h with h | h
      · exact Or.inl (Or.inl h)
      · exact Or.inl (Or.inr h)
    · simp only [dset, h0, if_false, Bool.false_eq_true, List.map_cons,
        List.mem_cons] at h
      simp only [List.map_cons, List.mem_cons]
      rcases h with h | h
      · exact Or.inl (Or.inl h)
      · rcases ih h with h2 | h2
        · exact Or.inl (Or.inr h2)
        · exact Or.inr h2

theorem keysND_dset (d : PyDict) (k : PyStr) (v : PyVal) (h : keysND d) :
    keysND (dset d k v) := by
  induction d with
  | nil => simp [dset, keysND]
  | cons p rest ih =>
    obtain ⟨k0, v0⟩ := p
    simp only [keysND, List.map_cons, List.nodup_cons] at h
    by_cases h0 : (k0 == k) = true
    · simp only [keysND, dset, h0, if_true, List.map_cons, List.nodup_cons]
      exact h
    · have hnd := ih h.2
      simp only [keysND, dset, h0, if_false, Bool.false_eq_true,
        List.map_cons, List.nodup_cons]
      refine ⟨?_, hnd⟩
      intro hmem
      rcases mem_keys_dset rest k k0 v hmem with h2 | h2
      · exact h.1 h2
      · rw [h2] at h0
        simp at h0

theorem dget_derase_ne (d : PyDict) (k k' : PyStr) (h : k' ≠ k) :
    dget (derase d k) k' = dget d k' := by
  induction d with
  | nil => rfl
  | cons p rest ih =>
    obtain ⟨k0, v0⟩ := p
    by_cases h0 : (k0 == k) = true
    · have hk0 : k0 = k := by simpa using h0
      have hcond : ¬ (k0 == k') = true := by
        simp only [hk0, beq_iff_eq]
        exact Ne.symm h
      simp only [derase, h0, if_true, dget]
      rw [if_neg hcond]
    · simp only [derase, h0, if_false, Bool.false_eq_true, dget]
      by_cases h1 : (k0 == k') = true
      · simp [h1]
      · simp only [h1, if_false, Bool.false_eq_true]
        exact ih

theorem dget_derase_self (d : PyDict) (k : PyStr) (h : keysND d) :
    dget (derase d k) k = none := by
  induction d with
  | nil => rfl
  | cons p rest ih =>
    obtain ⟨k0, v0⟩ := p
    simp only [keysND, List.map_cons, List.nodup_cons] at h
    by_cases h0 : (k0 == k) = true
    · have hk0 : k0 = k := by simpa using h0
      simp only [derase, h0, if_true]
      apply dget_none_of_not_mem_keys
      rw [← hk0]
      exact h.1
    · simp only [derase, h0, if_false, Bool.false_eq_true, dget, h0]
      exact ih h.2

theorem errAppend_false (code : PyStr) (d : PyDict) :
    errAppend false code d = d := rfl

theorem dget_errAppend_ne (flag : Bool) (code : PyStr) (d : PyDict)
    (k : PyStr) (h : k ≠ errK) :
    dget (errAppend flag code d) k = dget d k := by
  unfold errAppend
  cases flag
  · simp
  · simp only [if_true]
    rcases he : dget d errK with _ | v
    · rfl
    · rcases v with b | n | q | s | l
    -- only the list case mutates the dict
      · rfl
      · rfl
      · rfl
      · rfl
      · exact dget_dset_ne d errK k (.pList (l ++ [code])) h

theorem dget_errAppend_true (code : PyStr) (d : PyDict) (l : List PyStr)
    (h : dget d errK = some (.pList l)) :
    dget (errAppend true code d) errK = some (.pList (l ++ [code])) := by
  unfold errAppend
  rw [if_pos rfl, h]
  exact dget_dset_self d errK (.pList (l ++ [code]))

theorem keysND_errAppend (flag : Bool) (code : PyStr) (d : PyDict)
    (h : keysND d) : keysND (errAppend flag code d) := by
  unfold errAppend
  cases flag
  · simpa
  · simp only [if_true]
    rcases he : dget d errK with _ | v
    · exact h
    · rcases v with b | n | q | s | l
      · exact h
      · exact h
      · exact h
      · exact h
      · exact keysND_dset d errK (.pList (l ++ [code])) h

/-- `decodeStep` never touches keys other than the processed token
and `'ERR'`. -/
theorem decodeStep_dget_other (flag : Bool) (prev : Option PyStr)
    (t next : PyStr) (d d1 : PyDict) (K : PyStr) (hKt : K ≠ t)
    (hKe : K ≠ errK) (hs : decodeStep flag prev t next d = .ok d1) :
    dget d1 K = dget d K := by
  unfold decodeStep at hs
  by_cases hp : prev = some errK
  · rw [if_pos hp] at hs
    cases hs
    rfl
  · rw [if_neg hp] at hs
    rcases hl : schemaLookup t with _ | spec
    · simp only [hl] at hs
      cases hs
      rfl
    · simp only [hl] at hs
      rcases hc : checkTok spec next with e | ov
      · simp only [hc] at hs
        cases hs
      · simp only [hc] at hs
        rcases ov with _ | v
        · cases hs
          exact dget_errAppend_ne flag t d K hKe
        · cases hs
          exact dget_dset_ne d t K v hKt

/-- `decodeStep` extends the error list by at most the processed token,
and only when reporting is on. -/
theorem decodeStep_err_list (flag : Bool) (prev : Option PyStr)
    (t next : PyStr) (d d1 : PyDict) (l : List PyStr) (hte : t ≠ errK)
    (hd : dget d errK = some (.pList l))
    (hs : decodeStep flag prev t next d = .ok d1) :
    ∃ ext, dget d1 errK = some (.pList (l ++ ext)) ∧
      (flag = false → ext = []) := by
  unfold decodeStep at hs
  by_cases hp : prev = some errK
  · rw [if_pos hp] at hs
    cases hs
    exact ⟨[], by simpa using hd, fun _ => rfl⟩
  · rw [if_neg hp] at hs
    rcases hl : schemaLookup t with _ | spec
    · simp only [hl] at hs
      cases hs
      exact ⟨[], by simpa using hd, fun _ => rfl⟩
    · simp only [hl] at hs
      rcases hc : checkTok spec next with e | ov
      · simp only [hc] at hs
        cases hs
      · simp only [hc] at hs
        rcases ov with _ | v
        · cases hs
          cases flag
          · exact ⟨[], by simpa using hd, fun _ => rfl⟩
          · exact ⟨[t], dget_errAppend_true t d l hd, by simp⟩
        · cases hs
          refine ⟨[], ?_, fun _ => rfl⟩
          rw [List.append_nil]
          rw [dget_dset_ne d t errK v (Ne.symm hte)]
          exact hd

theorem decodeStep_keysND (flag : Bool) (prev : Option PyStr)
    (t next : PyStr) (d d1 : PyDict) (h : keysND d)
    (hs : decodeStep flag prev t next d = .ok d1) : keysND d1 := by
  unfold decodeStep at hs
  by_cases hp : prev = some errK
  · rw [if_pos hp] at hs
    cases hs
    exact h
  · rw [if_neg hp] at hs
    rcases hl : schemaLookup t with _ | spec
    · simp only [hl] at hs
      cases hs
      exact h
    · simp only [hl] at hs
      rcases hc : checkTok spec next with e | ov
      · simp only [hc] at hs
        cases hs
      · simp only [hc] at hs
        rcases ov with _ | v
        · cases hs
          exact keysND_errAppend flag t d h
        · cases hs
          exact keysND_dset d t v h

theorem decodeLoop_cons2 (flag : Bool) (prev : Option PyStr) (t next : PyStr)
    (rest : List PyStr) (d : PyDict) :
    decodeLoop flag prev (t :: next :: rest) d =
      match decodeStep flag prev t next d with
      | .error e => .error e
      | .ok d1 => decodeLoop flag (some t) (next :: rest) d1 := rfl

/-- Over any token list containing no literal `'ERR'`, the error list
survives as a list and only grows; with reporting off it never grows. -/
theorem decodeLoop_err_list :
    ∀ (toks : List PyStr) (prev : Option PyStr) (d d' : PyDict) (flag : Bool)
      (l : List PyStr),
      errK ∉ toks → dget d errK = some (.pList l) →
      decodeLoop flag prev toks d = .ok d' →
      ∃ l2, dget d' errK = some (.pList (l ++ l2)) ∧
        (flag = false → l2 = []) := by
  intro toks
  induction toks with
  | nil =>
    intro prev d d' flag l _ hd hloop
    cases hloop
    exact ⟨[], by simpa using hd, fun _ => rfl⟩
  | cons t rest ih =>
    intro prev d d' flag l hmem hd hloop
    rcases rest with _ | ⟨next, rest'⟩
    · cases hloop
      exact ⟨[], by simpa using hd, fun _ => rfl⟩
    · rw [decodeLoop_cons2] at hloop
      rcases hs : decodeStep flag prev t next d with e | d1
      · simp only [hs] at hloop
        cases hloop
      · simp only [hs] at hloop
        have ht : t ≠ errK := fun hh =>
          hmem (by rw [hh]; exact List.mem_cons_self _ _)
        obtain ⟨ext, hd1, hext⟩ :=
          decodeStep_err_list flag prev t next d d1 l ht hd hs
        have hmem' : errK ∉ next :: rest' := fun hh =>
          hmem (List.mem_cons_of_mem t hh)
        obtain ⟨l2', hd', hl2'⟩ :=
          ih (some t) d1 d' flag (l ++ ext) hmem' hd1 hloop
        refine ⟨ext ++ l2', ?_, ?_⟩
        · rw [← List.append_assoc]
          exact hd'
        · intro hf
          rw [hext hf, hl2' hf]
          rfl

/-- Over any token list that never mentions `K`, decoding leaves the
entry for `K` unchanged (for `K` other than `'ERR'`). -/
theorem decodeLoop_dget_preserved :
    ∀ (toks : List PyStr) (prev : Option PyStr) (d d' : PyDict) (flag : Bool)
      (K : PyStr), K ∉ toks → K ≠ errK →
      decodeLoop flag prev toks d = .ok d' → dget d' K = dget d K := by
  intro toks
  induction toks with
  | nil =>
    intro prev d d' flag K _ _ hloop
    cases hloop
    rfl
  | cons t rest ih =>
    intro prev d d' flag K hmem hKe hloop
    rcases rest with _ | ⟨next, rest'⟩
    · cases hloop
      rfl
    · rw [decodeLoop_cons2] at hloop
      rcases hs : decodeStep flag prev t next d with e | d1
      · simp only [hs] at hloop
        cases hloop
      · simp only [hs] at hloop
        have hKt : K ≠ t := fun hh =>
          hmem (by rw [hh]; exact List.mem_cons_self _ _)
        have hmem' : K ∉ next :: rest' := fun hh =>
          hmem (List.mem_cons_of_mem t hh)
        rw [ih (some t) d1 d' flag K hmem' hKe hloop]
        exact decodeStep_dget_other flag prev t next d d1 K hKt hKe hs

/-- Decoding preserves distinctness of the dict keys. -/
theorem decodeLoop_keysND :
    ∀ (toks : List PyStr) (prev : Option PyStr) (d d' : PyDict) (flag : Bool),
      keysND d → decodeLoop flag prev toks d = .ok d' → keysND d' := by
  intro toks
  induction toks with
  | nil =>
    intro prev d d' flag hk hloop
    cases hloop
    exact hk
  | cons t rest ih =>
    intro prev d d' flag hk hloop
    rcases rest with _ | ⟨next, rest'⟩
    · cases hloop
      exact hk
    · rw [decodeLoop_cons2] at hloop
      rcases hs : decodeStep flag prev t next d with e | d1
      · simp only [hs] at hloop
        cases hloop
      · simp only [hs] at hloop
        exact ih (some t) d1 d' flag
          (decodeStep_keysND flag prev t next d d1 hk hs) hloop

/-- Walking the loop over `pre ++ K :: V :: post` when `K`'s single
occurrence carries an invalid value: `K` is never assigned, and its code
lands in the error list exactly when reporting is on. -/
theorem decodeLoop_fail_key :
    ∀ (pre post : List PyStr) (K V : PyStr) (spec : CmdSpec)
      (prev : Option PyStr) (d d' : PyDict) (flag : Bool) (l : List PyStr),
      errK ∉ pre → errK ∉ (K :: V :: post) →
      K ∉ pre → K ∉ V :: post →
      prev ≠ some errK →
      schemaLookup K = some spec →
      checkTok spec V = .ok none →
      dget d K = none →
      dget d errK = some (.pList l) →
      decodeLoop flag prev (pre ++ K :: V :: post) d = .ok d' →
      dget d' K = none ∧
        ∃ l2, dget d' errK = some (.pList l2) ∧
          (flag = true → K ∈ l2) ∧ (flag = false → l2 = l) := by
  intro pre
  induction pre with
  | nil =>
    intro post K V spec prev d d' flag l _ herr2 _ hK2 hprev hsch hchk hdK
      hderr hloop
    have hKe : K ≠ errK := fun hh => herr2 (by rw [hh]; exact List.mem_cons_self _ _)
    simp only [List.nil_append] at hloop
    rw [decodeLoop_cons2] at hloop
    have hstep : decodeStep flag prev K V d = .ok (errAppend flag K d) := by
      unfold decodeStep
      rw [if_neg hprev]
      simp only [hsch, hchk]
    simp only [hstep] at hloop
    have herrV : errK ∉ V :: post := fun hh =>
      herr2 (List.mem_cons_of_mem K hh)
    have hd1K : dget (errAppend flag K d) K = none := by
      rw [dget_errAppend_ne flag K d K hKe]
      exact hdK
    constructor
    · rw [decodeLoop_dget_preserved (V :: post) (some K)
        (errAppend flag K d) d' flag K hK2 hKe hloop]
      exact hd1K
    · cases flag
      · have hd1e : dget (errAppend false K d) errK = some (.pList l) := by
          rw [errAppend_false]
          exact hderr
        obtain ⟨l2', hd', hl2'⟩ := decodeLoop_err_list (V :: post) (some K)
          (errAppend false K d) d' false l herrV hd1e hloop
        refine ⟨l ++ l2', hd', ?_, ?_⟩
        · intro hf
          cases hf
        · intro _
          rw [hl2' rfl]
          exact List.append_nil l
      · have hd1e : dget (errAppend true K d) errK =
            some (.pList (l ++ [K])) := dget_errAppend_true K d l hderr
        obtain ⟨l2', hd', _⟩ := decodeLoop_err_list (V :: post) (some K)
          (errAppend true K d) d' true (l ++ [K]) herrV hd1e hloop
        refine ⟨l ++ [K] ++ l2', hd', ?_, ?_⟩
        · intro _
          simp
        · intro hf
          cases hf
  | cons t pre' ih =>
    intro post K V spec prev d d' flag l herr1 herr2 hK1 hK2 hprev hsch hchk
      hdK hderr hloop
    have hte : t ≠ errK := fun hh => herr1 (by rw [hh]; exact List.mem_cons_self _ _)
    have hKt : K ≠ t := fun hh => hK1 (by rw [hh]; exact List.mem_cons_self _ _)
    have hKe : K ≠ errK := fun hh => herr2 (by rw [hh]; exact List.mem_cons_self _ _)
    have herr1' : errK ∉ pre' := fun hh => herr1 (List.mem_cons_of_mem t hh)
    have hK1' : K ∉ pre' := fun hh => hK1 (List.mem_cons_of_mem t hh)
    -- expose the first two tokens of t :: (pre' ++ K :: V :: post)
    rcases pre' with _ | ⟨t2, pre''⟩
    · simp only [List.cons_append, List.nil_append] at hloop
      rw [decodeLoop_cons2] at hloop
      rcases hs : decodeStep flag prev t K d with e | d1
      · simp only [hs] at hloop
        cases hloop
      · simp only [hs] at hloop
        have hd1K : dget d1 K = none := by
          rw [decodeStep_dget_other flag prev t K d d1 K hKt hKe hs]
          exact hdK
        obtain ⟨ext, hd1e, hext⟩ :=
          decodeStep_err_list flag prev t K d d1 l hte hderr hs
        have := ih post K V spec (some t) d1 d' flag (l ++ ext)
          (by simp) herr2 (by simp) hK2
          (fun hh => hte (by injection hh)) hsch hchk hd1K hd1e
          (by simpa using hloop)
        obtain ⟨hK, l2, hd', hin, hfl⟩ := this
        refine ⟨hK, l2, hd', hin, ?_⟩
        intro hf
        rw [hfl hf, hext hf]
        exact List.append_nil l
    · simp only [List.cons_append] at hloop
      rw [decodeLoop_cons2] at hloop
      rcases hs : decodeStep flag prev t t2 d with e | d1
      · simp only [hs] at hloop
        cases hloop
      · simp only [hs] at hloop
        have hd1K : dget d1 K = none := by
          rw [decodeStep_dget_other flag prev t t2 d d1 K hKt hKe hs]
          exact hdK
        obtain ⟨ext, hd1e, hext⟩ :=
          decodeStep_err_list flag prev t t2 d d1 l hte hderr hs
        have := ih post K V spec (some t) d1 d' flag (l ++ ext)
          herr1' herr2 hK1' hK2
          (fun hh => hte (by injection hh)) hsch hchk hd1K hd1e
          (by simpa using hloop)
        obtain ⟨hK, l2, hd', hin, hfl⟩ := this
        refine ⟨hK, l2, hd', hin, ?_⟩
        intro hf
        rw [hfl hf, hext hf]
        exact List.append_nil l

/-- C3: a key whose single occurrence carries a value token failing
validation is omitted from the returned command set; its code is appended
to the error list iff error reporting is enabled (requested by the caller
or decoding on a `SocketServer`); and the `'ERR'` key is absent from the
returned set whenever the list is empty or reporting is off.  (The
message is assumed not to contain a literal `'ERR'` token, which would
redirect the error-list entry itself.) -/
theorem C3_invalid_value_reporting
    (message : PyStr) (return_errors isServer : Bool) (K V : PyStr)
    (spec : CmdSpec) (pre post : List PyStr) (r : PyDict)
    (hsplit : splitWs message = pre ++ K :: V :: post)
    (herr : errK ∉ splitWs message)
    (hK1 : K ∉ pre) (hK2 : K ∉ V :: post)
    (hsch : schemaLookup K = some spec)
    (hfail : checkTok spec V = .ok none)
    (hdec : decode_comms message return_errors isServer = .ok r) :
    dget r K = none ∧
    (K ∈ errTokens r ↔ (return_errors || isServer) = true) ∧
    ((return_errors || isServer) = false → dget r errK = none) ∧
    (errTokens r = [] → dget r errK = none) := by
  rw [hsplit] at herr
  have herrpre : errK ∉ pre := fun hh => herr (List.mem_append_left _ hh)
  have herrKVp : errK ∉ K :: V :: post := fun hh =>
    herr (List.mem_append_right _ hh)
  have hKe : K ≠ errK := fun hh =>
    herrKVp (by rw [hh]; exact List.mem_cons_self _ _)
  have hd0K : dget [(errK, PyVal.pList [])] K = none := by
    simp only [dget]
    rw [if_neg (by simpa using Ne.symm hKe)]
  unfold decode_comms at hdec
  rw [hsplit] at hdec
  rcases hloop : decodeLoop (return_errors || isServer) none
      (pre ++ K :: V :: post) [(errK, .pList [])] with e | dmid
  · simp only [hloop] at hdec
    cases hdec
  · simp only [hloop] at hdec
    obtain ⟨hKnone, l2, hderr2, hinT, hinF⟩ :=
      decodeLoop_fail_key pre post K V spec none [(errK, .pList [])] dmid
        (return_errors || isServer) [] herrpre herrKVp hK1 hK2 (by simp)
        hsch hfail hd0K (by simp [dget]) hloop
    have hND : keysND dmid :=
      decodeLoop_keysND _ none _ dmid (return_errors || isServer)
        (by simp [keysND]) hloop
    cases hf : (return_errors || isServer)
    · rw [hf] at hdec
      simp only [Bool.not_false, Bool.or_true, if_true] at hdec
      have hr : r = derase dmid errK := by cases hdec; rfl
      have hre : dget r errK = none := by
        rw [hr]
        exact dget_derase_self dmid errK hND
      have het : errTokens r = [] := by
        unfold errTokens
        rw [hre]
      refine ⟨?_, ?_, fun _ => hre, fun _ => hre⟩
      · rw [hr, dget_derase_ne dmid errK K hKe]
        exact hKnone
      · rw [het]
        simp
    · rw [hf] at hdec
      have hKl2 : K ∈ l2 := hinT hf
      have hl2ne : l2.length ≠ 0 := by
        intro hh
        rw [List.length_eq_zero] at hh
        rw [hh] at hKl2
        cases hKl2
      simp only [hderr2, Bool.not_true, Bool.or_false] at hdec
      rw [if_neg (by simpa using hl2ne)] at hdec
      have hr : r = dmid := by cases hdec; rfl
      have het : errTokens r = l2 := by
        unfold errTokens
        rw [hr, hderr2]
      refine ⟨?_, ?_, ?_, ?_⟩
      · rw [hr]
        exact hKnone
      · rw [het]
        simp [hKl2]
      · intro hh
        cases hh
      · intro hh
        rw [het] at hh
        rw [hh] at hKl2
        cases hKl2

/-- Concrete instance of C3: an out-of-range shutter speed
(`SSA 7000000` against the domain `[1, 6000001]`), decoded with error
reporting requested. -/
theorem C3_invalid_value_reporting_witness :
    dget [(errK, PyVal.pList [pstr "SSA"])] (pstr "SSA") = none ∧
    (pstr "SSA" ∈ errTokens [(errK, PyVal.pList [pstr "SSA"])] ↔
      (true || false) = true) ∧
    ((true || false) = false →
      dget [(errK, PyVal.pList [pstr "SSA"])] errK = none) ∧
    (errTokens [(errK, PyVal.pList [pstr "SSA"])] = [] →
      dget [(errK, PyVal.pList [pstr "SSA"])] errK = none) :=
  C3_invalid_value_reporting (pstr "SSA 7000000") true false
    (pstr "SSA") (pstr "7000000") (.sInt 1 6000001) [] []
    [(errK, PyVal.pList [pstr "SSA"])]
    (by decide) (by decide) (by decide) (by decide) (by decide) (by decide)
    (by decide)

theorem digitChar_toNat (d : Nat) (h : d < 10) :
    (digitChar d).toNat = 48 + d := by
  interval_cases d <;> decide

theorem digitChar_isDigit (d : Nat) (h : d < 10) :
    isDigitC (digitChar d) = true := by
  interval_cases d <;> decide

theorem natToStrAux_eq_digits :
    ∀ (f n : Nat) (acc : List Char), n ≤ f →
      natToStrAux f n acc = ((Nat.digits 10 n).reverse.map digitChar) ++ acc := by
  intro f
  induction f with
  | zero =>
    intro n acc h
    have hn : n = 0 := by omega
    rw [hn]
    simp [natToStrAux, Nat.digits_zero]
  | succ f ih =>
    intro n acc h
    by_cases hn : n = 0
    · rw [hn]
      simp [natToStrAux, Nat.digits_zero]
    · have h0 : 0 < n := Nat.pos_of_ne_zero hn
      have hlt : n / 10 ≤ f := by
        have := Nat.div_lt_self h0 (by norm_num : 1 < 10)
        omega
      show natToStrAux (f + 1) n acc = _
      unfold natToStrAux
      rw [if_neg hn]
      rw [ih (n / 10) (digitChar (n % 10) :: acc) hlt]
      rw [Nat.digits_def' (by norm_num : 1 < 10) h0]
      simp [List.append_assoc]

theorem natToStr_eq (n : Nat) :
    natToStr n =
      if n = 0 then ['0'] else (Nat.digits 10 n).reverse.map digitChar := by
  unfold natToStr
  by_cases hn : n = 0
  · rw [if_pos hn, if_pos hn]
  · rw [if_neg hn, if_neg hn]
    rw [natToStrAux_eq_digits n n [] (le_refl n)]
    exact List.append_nil _

theorem natToStr_all_digits (n : Nat) :
    ∀ c ∈ natToStr n, isDigitC c = true := by
  intro c hc
  rw [natToStr_eq] at hc
  by_cases hn : n = 0
  · rw [if_pos hn] at hc
    simp only [List.mem_singleton] at hc
    rw [hc]
    decide
  · rw [if_neg hn] at hc
    simp only [List.mem_map, List.mem_reverse] at hc
    obtain ⟨d, hd, rfl⟩ := hc
    exact digitChar_isDigit d (Nat.digits_lt_base (by norm_num) hd)

theorem natToStr_ne_nil (n : Nat) : natToStr n ≠ [] := by
  rw [natToStr_eq]
  by_cases hn : n = 0
  · rw [if_pos hn]
    simp
  · rw [if_neg hn]
    simp only [ne_eq, List.map_eq_nil_iff, List.reverse_eq_nil_iff]
    exact Nat.digits_ne_nil_iff_ne_zero.2 hn

theorem foldl_digits (L : List Nat) (hL : ∀ d ∈ L, d < 10) :
    ∀ a : Nat,
      List.foldl (fun x c => x * 10 + (c.toNat - 48)) a
        (L.reverse.map digitChar) = a * 10 ^ L.length + Nat.ofDigits 10 L := by
  induction L with
  | nil => intro a; simp
  | cons d L' ih =>
    intro a
    have hd : d < 10 := hL d (List.mem_cons_self _ _)
    have hL' : ∀ x ∈ L', x < 10 := fun x hx => hL x (List.mem_cons_of_mem d hx)
    simp only [List.reverse_cons, List.map_append, List.map_cons,
      List.map_nil, List.foldl_append, List.foldl_cons, List.foldl_nil]
    rw [ih hL' a, digitChar_toNat d hd, Nat.ofDigits_cons]
    simp only [List.length_cons, pow_succ]
    have hdd : 48 + d - 48 = d := by omega
    rw [hdd]
    ring

theorem strVal_natToStr (n : Nat) : strVal (natToStr n) = n := by
  rw [natToStr_eq]
  by_cases hn : n = 0
  · rw [if_pos hn, hn]
    decide
  · rw [if_neg hn]
    unfold strVal
    rw [foldl_digits (Nat.digits 10 n)
      (fun d hd => Nat.digits_lt_base (by norm_num) hd) 0]
    rw [Nat.ofDigits_digits 10 n]
    omega

theorem parseNat_natToStr (n : Nat) : parseNat (natToStr n) = some n := by
  unfold parseNat
  rw [if_neg (natToStr_ne_nil n)]
  rw [if_pos (by rw [List.all_eq_true]; exact natToStr_all_digits n)]
  rw [strVal_natToStr]

theorem isDigitC_not_ws (c : Char) (h : isDigitC c = true) :
    isWsC c = false := by
  unfold isDigitC at h
  unfold isWsC
  simp only [Bool.and_eq_true, decide_eq_true_eq] at h
  simp only [Bool.or_eq_false_iff, decide_eq_false_iff_not]
  omega

theorem natToStr_head (n : Nat) :
    ∃ c cs, natToStr n = c :: cs ∧ isDigitC c = true := by
  rcases hh : natToStr n with _ | ⟨c, cs⟩
  · exact absurd hh (natToStr_ne_nil n)
  · refine ⟨c, cs, rfl, ?_⟩
    apply natToStr_all_digits n
    rw [hh]
    exact List.mem_cons_self _ _

theorem intToStr_head (n : Int) :
    ∃ c cs, intToStr n = c :: cs ∧ (c = '-' ∨ isDigitC c = true) := by
  unfold intToStr
  by_cases hn : n < 0
  · rw [if_pos hn]
    exact ⟨'-', natToStr n.natAbs, rfl, Or.inl rfl⟩
  · rw [if_neg hn]
    obtain ⟨c, cs, hc, hd⟩ := natToStr_head n.natAbs
    exact ⟨c, cs, hc, Or.inr hd⟩

theorem cmd_dict_heads : ∀ p ∈ cmd_dict, headUpper p.1 = true := by
  decide

theorem cmd_dict_keys_tokens :
    ∀ p ∈ cmd_dict, p.1 ≠ [] ∧ ∀ c ∈ p.1, isWsC c = false := by
  decide

theorem schemaLookup_mem (k : PyStr) (spec : CmdSpec)
    (h : schemaLookup k = some spec) : (k, spec) ∈ cmd_dict := by
  unfold schemaLookup at h
  rcases hf : cmd_dict.find? (fun p => p.1 == k) with _ | p
  · rw [hf] at h
    cases h
  · rw [hf] at h
    have hmem := List.mem_of_find?_eq_some hf
    have hkey := List.find?_some hf
    simp only [beq_iff_eq] at hkey
    have : p.2 = spec := by
      cases h
      rfl
    rw [← hkey, ← this]
    simpa using hmem

theorem schemaLookup_none_of_head (tok : PyStr)
    (h : headUpper tok = false) : schemaLookup tok = none := by
  rcases hl : schemaLookup tok with _ | spec
  · rfl
  · have h1 := cmd_dict_heads (tok, spec) (schemaLookup_mem tok spec hl)
    have h2 : headUpper tok = true := h1
    rw [h] at h2
    cases h2

theorem headUpper_digit_or_sign (c : Char) (cs : List Char)
    (h : c = '-' ∨ isDigitC c = true) : headUpper (c :: cs) = false := by
  have hle : ¬ (65 ≤ c.toNat ∧ c.toNat ≤ 90) := by
    rcases h with h | h
    · rw [h]
      decide
    · unfold isDigitC at h
      simp only [Bool.and_eq_true, decide_eq_true_eq] at h
      omega
  show (decide (65 ≤ c.toNat) && decide (c.toNat ≤ 90)) = false
  simp only [Bool.and_eq_false_iff, decide_eq_false_iff_not]
  tauto

theorem intToStr_legal (n : Int) :
    intToStr n ≠ [] ∧ (∀ c ∈ intToStr n, isWsC c = false) ∧
      schemaLookup (intToStr n) = none := by
  obtain ⟨c, cs, hc, hd⟩ := intToStr_head n
  refine ⟨by rw [hc]; simp, ?_, ?_⟩
  · intro x hx
    unfold intToStr at hx
    by_cases hn : n < 0
    · rw [if_pos hn] at hx
      rcases List.mem_cons.1 hx with hx | hx
      · rw [hx]
        decide
      · exact isDigitC_not_ws x (natToStr_all_digits _ x hx)
    · rw [if_neg hn] at hx
      exact isDigitC_not_ws x (natToStr_all_digits _ x hx)
  · rw [hc]
    exact schemaLookup_none_of_head _ (headUpper_digit_or_sign c cs hd)

theorem pyParseInt_intToStr (n : Int) : pyParseInt (intToStr n) = some n := by
  unfold intToStr
  by_cases hn : n < 0
  · rw [if_pos hn]
    show pyParseInt ('-' :: natToStr n.natAbs) = some n
    simp only [pyParseInt]
    simp only [if_true]
    rw [parseNat_natToStr]
    simp only [Option.map_eq_some', Option.bind_eq_bind, Option.bind_some,
      Option.pure_def]
    refine ⟨(n.natAbs : Int), by simp, by omega⟩
  · rw [if_neg hn]
    obtain ⟨c, cs, hc, hd⟩ := natToStr_head n.natAbs
    rw [hc]
    simp only [pyParseInt]
    have hcm : c ≠ '-' := by
      intro hh
      rw [hh] at hd
      exact absurd hd (by decide)
    have hcp : c ≠ '+' := by
      intro hh
      rw [hh] at hd
      exact absurd hd (by decide)
    rw [if_neg hcm, if_neg hcp]
    rw [← hc, parseNat_natToStr]
    simp only [Option.map_eq_some', Option.bind_eq_bind, Option.bind_some,
      Option.pure_def]
    refine ⟨(n.natAbs : Int), by simp, by omega⟩

theorem takeWhile_append_all (p : Char → Bool) (A : List Char)
    (hA : ∀ c ∈ A, p c = true) (x : Char) (hx : p x = false)
    (B : List Char) :
    (A ++ x :: B).takeWhile p = A ∧ (A ++ x :: B).dropWhile p = x :: B := by
  induction A with
  | nil =>
    simp only [List.nil_append, List.takeWhile_cons, List.dropWhile_cons, hx]
    simp
  | cons a A' ih =>
    have ha : p a = true := hA a (List.mem_cons_self _ _)
    have hA' : ∀ c ∈ A', p c = true := fun c hc =>
      hA c (List.mem_cons_of_mem a hc)
    obtain ⟨iht, ihd⟩ := ih hA'
    constructor
    · simp only [List.cons_append, List.takeWhile_cons, ha]
      simp [iht]
    · simp only [List.cons_append, List.dropWhile_cons, ha]
      simp [ihd]

theorem strVal_two_digits (a : Nat) :
    strVal [digitChar (a % 100 / 10), digitChar (a % 10)] = a % 100 := by
  unfold strVal
  simp only [List.foldl_cons, List.foldl_nil]
  rw [digitChar_toNat (a % 100 / 10) (by omega), digitChar_toNat (a % 10)
    (by omega)]
  omega

theorem parseUFloat_fmt2_body (a : Nat) :
    parseUFloat (natToStr (a / 100) ++
        '.' :: digitChar (a % 100 / 10) :: [digitChar (a % 10)]) =
      some ((a : ℚ) / 100) := by
  obtain ⟨htake, hdrop⟩ := takeWhile_append_all isDigitC (natToStr (a / 100))
    (natToStr_all_digits _) '.' (by decide)
    (digitChar (a % 100 / 10) :: [digitChar (a % 10)])
  unfold parseUFloat
  simp only [htake, hdrop]
  rw [if_neg (by simp [natToStr_ne_nil])]
  rw [if_pos (by
    rw [List.all_eq_true]
    intro c hc
    rcases List.mem_cons.1 hc with hc | hc
    · rw [hc]
      exact digitChar_isDigit _ (by omega)
    · rcases List.mem_cons.1 hc with hc | hc
      · rw [hc]
        exact digitChar_isDigit _ (by omega)
      · cases hc)]
  rw [strVal_natToStr, strVal_two_digits]
  rw [List.length_cons, List.length_cons, List.length_nil]
  have h100 : ((10 : ℚ) ^ (2 : Nat)) = 100 := by norm_num
  rw [h100]
  congr 1
  have hmod : (100 * (a / 100) + a % 100 : ℕ) = a := Nat.div_add_mod a 100
  have hq : (100 : ℚ) * ((a / 100 : ℕ) : ℚ) + ((a % 100 : ℕ) : ℚ) = (a : ℚ) := by
    exact_mod_cast hmod
  field_simp
  linarith

theorem isDigitC_ne_dash (c : Char) (h : isDigitC c = true) : c ≠ '-' := by
  intro hh
  rw [hh] at h
  exact absurd h (by decide)

theorem isDigitC_ne_plus (c : Char) (h : isDigitC c = true) : c ≠ '+' := by
  intro hh
  rw [hh] at h
  exact absurd h (by decide)

theorem pyParseFloat_fmt2 (q : ℚ) :
    pyParseFloat (fmt2 q) = some ((round (q * 100) : ℚ) / 100) := by
  unfold fmt2
  by_cases hs : round (q * 100) < 0
  · rw [if_pos hs]
    show pyParseFloat ('-' :: _) = _
    simp only [pyParseFloat]
    simp only [if_true]
    rw [parseUFloat_fmt2_body]
    simp only [Option.map_some']
    congr 1
    rw [Int.cast_natAbs]
    rw [abs_of_neg (by exact_mod_cast hs)]
    push_cast
    ring
  · rw [if_neg hs]
    obtain ⟨c, cs, hc, hd⟩ := natToStr_head ((round (q * 100)).natAbs / 100)
    rw [hc, List.cons_append]
    simp only [pyParseFloat]
    rw [if_neg (isDigitC_ne_dash c hd), if_neg (isDigitC_ne_plus c hd)]
    rw [← List.cons_append, ← hc]
    rw [parseUFloat_fmt2_body]
    congr 2
    rw [Int.cast_natAbs]
    rw [abs_of_nonneg (by exact_mod_cast not_lt.1 hs)]

theorem fmt2_legal (q : ℚ) :
    fmt2 q ≠ [] ∧ (∀ c ∈ fmt2 q, isWsC c = false) ∧
      schemaLookup (fmt2 q) = none := by
  unfold fmt2
  have hbody : ∀ c ∈ natToStr ((round (q * 100)).natAbs / 100) ++
      '.' :: digitChar ((round (q * 100)).natAbs % 100 / 10) ::
        [digitChar ((round (q * 100)).natAbs % 10)], isWsC c = false := by
    intro c hc
    rcases List.mem_append.1 hc with hc | hc
    · exact isDigitC_not_ws c (natToStr_all_digits _ c hc)
    · rcases List.mem_cons.1 hc with hc | hc
      · rw [hc]
        decide
      · rcases List.mem_cons.1 hc with hc | hc
        · rw [hc]
          exact isDigitC_not_ws _ (digitChar_isDigit _ (by omega))
        · rcases List.mem_cons.1 hc with hc | hc
          · rw [hc]
            exact isDigitC_not_ws _ (digitChar_isDigit _ (by omega))
          · cases hc
  obtain ⟨c, cs, hc, hd⟩ := natToStr_head ((round (q * 100)).natAbs / 100)
  by_cases hs : round (q * 100) < 0
  · rw [if_pos hs]
    refine ⟨by simp, ?_, ?_⟩
    · intro x hx
      rcases List.mem_cons.1 hx with hx | hx
      · rw [hx]
        decide
      · exact hbody x hx
    · exact schemaLookup_none_of_head _
        (headUpper_digit_or_sign '-' _ (Or.inl rfl))
  · rw [if_neg hs]
    refine ⟨?_, hbody, ?_⟩
    · rw [hc, List.cons_append]
      simp
    · rw [hc, List.cons_append]
      exact schemaLookup_none_of_head _
        (headUpper_digit_or_sign c _ (Or.inr hd))

theorem round_div_le (q hi : ℚ) (b : ℤ) (hb : hi = (b : ℚ) / 100)
    (h : q ≤ hi) : (round (q * 100) : ℚ) / 100 ≤ hi := by
  have h1 : q * 100 ≤ (b : ℚ) := by
    rw [hb] at h
    linarith
  have h2 : round (q * 100) ≤ round ((b : ℚ)) := by
    rw [round_eq, round_eq]
    exact Int.floor_le_floor (by linarith)
  rw [round_intCast] at h2
  have h3 : (round (q * 100) : ℚ) ≤ (b : ℚ) := by exact_mod_cast h2
  rw [hb]
  linarith

theorem round_div_ge (q lo : ℚ) (a : ℤ) (ha : lo = (a : ℚ) / 100)
    (h : lo ≤ q) : lo ≤ (round (q * 100) : ℚ) / 100 := by
  have h1 : (a : ℚ) ≤ q * 100 := by
    rw [ha] at h
    linarith
  have h2 : round ((a : ℚ)) ≤ round (q * 100) := by
    rw [round_eq, round_eq]
    exact Int.floor_le_floor (by linarith)
  rw [round_intCast] at h2
  have h3 : (a : ℚ) ≤ (round (q * 100) : ℚ) := by exact_mod_cast h2
  rw [ha]
  linarith

theorem round_div_close (q : ℚ) :
    |(round (q * 100) : ℚ) / 100 - q| ≤ 1 / 100 := by
  have h := abs_sub_round (q * 100)
  rw [abs_sub_comm] at h
  have heq : (round (q * 100) : ℚ) / 100 - q =
      ((round (q * 100) : ℚ) - q * 100) / 100 := by ring
  rw [heq, abs_div]
  rw [show |(100 : ℚ)| = 100 from by norm_num]
  linarith

set_option linter.unreachableTactic false in
set_option linter.unusedTactic false in
theorem cmd_dict_floatBounds : ∀ p ∈ cmd_dict, floatBoundsOK p.2 := by
  intro p hp
  unfold cmd_dict cmd_dict_base at hp
  fin_cases hp <;>
    first
    | trivial
    | (refine ⟨⟨0, ?_⟩, ⟨100, ?_⟩⟩ <;> norm_num <;> done)
    | (refine ⟨⟨0, ?_⟩, ⟨1000, ?_⟩⟩ <;> norm_num <;> done)
    | (refine ⟨⟨0, ?_⟩, ⟨90, ?_⟩⟩ <;> norm_num <;> done)
    | (refine ⟨⟨10, ?_⟩, ⟨100, ?_⟩⟩ <;> norm_num <;> done)

theorem schemaLookup_errK_ne_none : schemaLookup errK ≠ none := by decide

/-- For every schema-typed, in-domain value (with legal string tokens),
encoding renders a single clean token that decodes back to the same
value (floats rounded to two decimals). -/
theorem render_check (spec : CmdSpec) (v : PyVal)
    (hok : valOkAmended spec v = true) (hfb : floatBoundsOK spec) :
    ∃ tok, encodeVal spec v = some tok ∧ tok ≠ [] ∧
      (∀ c ∈ tok, isWsC c = false) ∧ schemaLookup tok = none ∧
      checkTok spec tok = .ok (some (decodedOf v)) := by
  cases spec with
  | sBool =>
    cases v with
    | pBool b =>
      cases b
      · exact ⟨pstr "0", by decide, by decide, by decide, by decide, by decide⟩
      · exact ⟨pstr "1", by decide, by decide, by decide, by decide, by decide⟩
    | pInt n => simp [valOkAmended] at hok
    | pFloat q => simp [valOkAmended] at hok
    | pStr s => simp [valOkAmended] at hok
    | pList l => simp [valOkAmended] at hok
  | sInt lo hi =>
    cases v with
    | pInt n =>
      simp only [valOkAmended, Bool.and_eq_true, decide_eq_true_eq] at hok
      obtain ⟨hlo, hhi⟩ := hok
      obtain ⟨hne, hws, hsl⟩ := intToStr_legal n
      refine ⟨intToStr n, rfl, hne, hws, hsl, ?_⟩
      simp only [checkTok, pyParseInt_intToStr]
      rw [if_neg (by
        simp only [Bool.or_eq_true, decide_eq_true_eq]
        push_neg
        omega)]
      rfl
    | pBool b => simp [valOkAmended] at hok
    | pFloat q => simp [valOkAmended] at hok
    | pStr s => simp [valOkAmended] at hok
    | pList l => simp [valOkAmended] at hok
  | sFloat lo hi =>
    cases v with
    | pFloat q =>
      simp only [valOkAmended, Bool.and_eq_true, decide_eq_true_eq] at hok
      obtain ⟨hlo, hhi⟩ := hok
      obtain ⟨⟨a, ha⟩, ⟨b, hb⟩⟩ := hfb
      obtain ⟨hne, hws, hsl⟩ := fmt2_legal q
      refine ⟨fmt2 q, rfl, hne, hws, hsl, ?_⟩
      simp only [checkTok, pyParseFloat_fmt2]
      rw [if_neg (by
        simp only [Bool.or_eq_true, decide_eq_true_eq]
        push_neg
        exact ⟨round_div_ge q lo a ha hlo, round_div_le q hi b hb hhi⟩)]
      rfl
    | pBool b => simp [valOkAmended] at hok
    | pInt n => simp [valOkAmended] at hok
    | pStr s => simp [valOkAmended] at hok
    | pList l => simp [valOkAmended] at hok
  | sStr allowed =>
    cases v with
    | pStr s =>
      simp only [valOkAmended, Bool.and_eq_true, Bool.or_eq_true] at hok
      obtain ⟨hleg, hdom⟩ := hok
      unfold tokenLegal at hleg
      simp only [Bool.and_eq_true, Bool.not_eq_true', List.all_eq_true,
        Option.isNone_iff_eq_none] at hleg
      obtain ⟨⟨hne, hws⟩, hsl⟩ := hleg
      refine ⟨s, rfl, ?_, ?_, hsl, ?_⟩
      · intro hh
        rw [hh] at hne
        cases hne
      · intro c hc
        simpa using hws c hc
      · simp only [checkTok]
        rcases hdom with hdom | hdom
      -- either any string is accepted or the value is in the allowed set
        · rw [if_pos (by
            rw [List.isEmpty_iff] at hdom
            rw [hdom]
            rfl)]
          rfl
        · by_cases hlen : allowed.length = 0
          · rw [if_pos hlen]
            rfl
          · rw [if_neg hlen, if_pos hdom]
            rfl
    | pBool b => simp [valOkAmended] at hok
    | pInt n => simp [valOkAmended] at hok
    | pFloat q => simp [valOkAmended] at hok
    | pList l => simp [valOkAmended] at hok

theorem splitWsAux_nonws (tok : List Char)
    (hws : ∀ c ∈ tok, isWsC c = false) :
    ∀ (rest acc : List Char),
      splitWsAux (tok ++ rest) acc = splitWsAux rest (tok.reverse ++ acc) := by
  induction tok with
  | nil => intro rest acc; simp
  | cons c ts ih =>
    intro rest acc
    have hc : isWsC c = false := hws c (List.mem_cons_self _ _)
    have hts : ∀ x ∈ ts, isWsC x = false := fun x hx =>
      hws x (List.mem_cons_of_mem c hx)
    simp only [List.cons_append, splitWsAux, hc, Bool.false_eq_true, if_false,
      List.append_eq]
    rw [ih hts rest (c :: acc)]
    congr 1
    simp [List.append_assoc]

theorem splitWs_token (tok rest : List Char) (hne : tok ≠ [])
    (hws : ∀ c ∈ tok, isWsC c = false) :
    splitWs (tok ++ ' ' :: rest) = tok :: splitWs rest := by
  unfold splitWs
  rw [splitWsAux_nonws tok hws (' ' :: rest) []]
  simp only [List.append_nil]
  have hrev : tok.reverse ≠ [] := by
    simpa [List.reverse_eq_nil_iff] using hne
  show (if isWsC ' ' = true then
      if tok.reverse = [] then splitWsAux rest []
      else tok.reverse.reverse :: splitWsAux rest []
    else splitWsAux rest (' ' :: tok.reverse)) = tok :: splitWsAux rest []
  rw [if_pos (by decide), if_neg hrev, List.reverse_reverse]

theorem dget_cons_self (k : PyStr) (v : PyVal) (m : PyDict) :
    dget ((k, v) :: m) k = some v := by
  simp [dget]

theorem dget_cons_ne (k k' : PyStr) (v : PyVal) (m : PyDict) (h : k' ≠ k) :
    dget ((k, v) :: m) k' = dget m k' := by
  simp only [dget]
  rw [if_neg (by simpa using Ne.symm h)]

theorem splitWs_end_str : splitWs end_str = [pstr "END"] := by decide

/-- Encoding a well-formed command set yields a token stream that the
decode loop walks to completion, assigning exactly the canonicalised
values of the set. -/
theorem encode_decode_loop :
    ∀ (m : PyDict), keysND m → errK ∉ m.map Prod.fst →
      (∀ p ∈ m, ∃ spec, schemaLookup p.1 = some spec ∧
        valOkAmended spec p.2 = true) →
      ∃ s, encode_comms m = some s ∧ splitWs s ≠ [] ∧
        ∀ (flag : Bool) (prev : Option PyStr) (d : PyDict),
          prev ≠ some errK →
          ∃ d', decodeLoop flag prev (splitWs s) d = .ok d' ∧
            ∀ k, dget d' k =
              (match dget m k with
               | some v => some (decodedOf v)
               | none => dget d k) := by
  intro m
  induction m with
  | nil =>
    intro _ _ _
    refine ⟨end_str, rfl, by rw [splitWs_end_str]; simp, ?_⟩
    intro flag prev d _
    rw [splitWs_end_str]
    refine ⟨d, rfl, ?_⟩
    intro k
    simp [dget]
  | cons p m' ih =>
    intro hND herrm hvals
    obtain ⟨k, v⟩ := p
    simp only [keysND, List.map_cons, List.nodup_cons] at hND
    obtain ⟨hkm', hND'⟩ := hND
    simp only [List.map_cons, List.mem_cons] at herrm
    push_neg at herrm
    obtain ⟨hke, herrm'⟩ := herrm
    have hke : k ≠ errK := Ne.symm hke
    obtain ⟨spec, hsch, hvok⟩ := by
      have := hvals (k, v) (List.mem_cons_self _ _)
      exact this
    have hvals' : ∀ p ∈ m', ∃ spec, schemaLookup p.1 = some spec ∧
        valOkAmended spec p.2 = true := fun p hp =>
      hvals p (List.mem_cons_of_mem _ hp)
    obtain ⟨s', henc', hne', hloop'⟩ := ih hND' herrm' hvals'
    have hfb : floatBoundsOK spec :=
      cmd_dict_floatBounds (k, spec) (schemaLookup_mem k spec hsch)
    obtain ⟨tok, hrender, htne, htws, htsl, hchk⟩ := render_check spec v hvok hfb
    have hkl := cmd_dict_keys_tokens (k, spec) (schemaLookup_mem k spec hsch)
    obtain ⟨hkne, hkws⟩ := hkl
    refine ⟨k ++ ' ' :: tok ++ ' ' :: s', ?_, ?_, ?_⟩
    · simp only [encode_comms, hsch, hrender, henc']
    · rw [show k ++ ' ' :: tok ++ ' ' :: s' = k ++ ' ' :: (tok ++ ' ' :: s')
        from by simp]
      rw [splitWs_token k _ hkne hkws, splitWs_token tok _ htne htws]
      simp
    · intro flag prev d hprev
      rw [show k ++ ' ' :: tok ++ ' ' :: s' = k ++ ' ' :: (tok ++ ' ' :: s')
        from by simp]
      rw [splitWs_token k _ hkne hkws, splitWs_token tok _ htne htws]
      obtain ⟨w, ws, hww⟩ := List.exists_cons_of_ne_nil hne'
      have htoke : tok ≠ errK := by
        intro hh
        rw [hh] at htsl
        exact schemaLookup_errK_ne_none htsl
      have hstep1 : decodeStep flag prev k tok d =
          .ok (dset d k (decodedOf v)) := by
        unfold decodeStep
        rw [if_neg hprev]
        simp only [hsch, hchk]
      have hstep2 : decodeStep flag (some k) tok w (dset d k (decodedOf v)) =
          .ok (dset d k (decodedOf v)) := by
        unfold decodeStep
        rw [if_neg (by
          intro hh
          exact hke (by injection hh))]
        simp only [htsl]
      obtain ⟨d', hdone, hvals2⟩ :=
        hloop' flag (some tok) (dset d k (decodedOf v))
          (by
            intro hh
            exact htoke (by injection hh))
      refine ⟨d', ?_, ?_⟩
      · rw [hww, decodeLoop_cons2]
        simp only [hstep1]
        rw [decodeLoop_cons2]
        simp only [hstep2]
        rw [← hww]
        exact hdone
      · intro k2
        by_cases hk2 : k2 = k
        · rw [hk2]
          rw [dget_cons_self]
          have := hvals2 k
          rw [dget_none_of_not_mem_keys m' k hkm'] at this
          simp only at this
          rw [this]
          exact dget_dset_self d k (decodedOf v)
        · rw [dget_cons_ne k k2 v m' hk2]
          have := hvals2 k2
          rcases hm2 : dget m' k2 with _ | v2
          · rw [hm2] at this
            simp only at this
            rw [this]
            rw [dget_dset_ne d k k2 (decodedOf v) hk2]
          · rw [hm2] at this
            simp only at this
            rw [this]

/-- C1 (amended): for every command set with distinct schema keys other
than `'ERR'`, type-correct in-domain values, and string values that are
single whitespace-free non-code tokens, decoding the encoded bytes
succeeds for either error-reporting flag and returns exactly the same
set, with every float value rounded to two decimals — hence within
`0.01` of the original. -/
theorem C1_roundtrip_amended (m : PyDict) (hND : keysND m)
    (herrm : errK ∉ m.map Prod.fst)
    (hvals : ∀ p ∈ m, ∃ spec, schemaLookup p.1 = some spec ∧
      valOkAmended spec p.2 = true)
    (return_errors isServer : Bool) :
    ∃ s r, encode_comms m = some s ∧
      decode_comms s return_errors isServer = .ok r ∧
      (∀ k, dget r k = (dget m k).map decodedOf) ∧
      (∀ k q q', dget m k = some (.pFloat q) →
        dget r k = some (.pFloat q') → |q' - q| ≤ 1 / 100) := by
  obtain ⟨s, henc, hne, hloop⟩ := encode_decode_loop m hND herrm hvals
  obtain ⟨d', hdone, hv⟩ := hloop (return_errors || isServer) none
    [(errK, .pList [])] (by simp)
  have hd'errK : dget d' errK = some (.pList []) := by
    have h0 := hv errK
    rw [dget_none_of_not_mem_keys m errK herrm] at h0
    simp only at h0
    rw [h0]
    simp [dget]
  have hND' : keysND d' :=
    decodeLoop_keysND _ none _ d' _ (by simp [keysND]) hdone
  have hmap : ∀ k, dget (derase d' errK) k = (dget m k).map decodedOf := by
    intro k
    by_cases hk : k = errK
    · rw [hk, dget_derase_self d' errK hND']
      rw [dget_none_of_not_mem_keys m errK herrm]
      rfl
    · rw [dget_derase_ne d' errK k hk]
      rw [hv k]
      rcases hmk : dget m k with _ | v
      · simp only [Option.map_none']
        simp only [dget]
        rw [if_neg (by simpa using Ne.symm hk)]
      · simp only [Option.map_some']
  refine ⟨s, derase d' errK, henc, ?_, hmap, ?_⟩
  · unfold decode_comms
    simp only [hdone, hd'errK, List.length_nil]
    rfl
  · intro k q q' hmq hrq
    have h1 := hmap k
    rw [hmq] at h1
    simp only [Option.map_some'] at h1
    rw [hrq] at h1
    have h2 : q' = (round (q * 100) : ℚ) / 100 := by
      have h3 : PyVal.pFloat q' = decodedOf (PyVal.pFloat q) := by
        injection h1
      simp only [decodedOf] at h3
      injection h3
    rw [h2]
    exact round_div_close q

/-- C1 counterexample: the schema-valid command set `TPA = 'HLO'` (any
string is accepted for `TPA`) does not round-trip when error reporting
is on: the decoder re-examines the value token `HLO` as a key, its value
token `END` is an invalid boolean, and the result carries a spurious
`ERR` entry absent from the original set. -/
theorem C1_roundtrip_counterexample :
    schemaLookup (pstr "TPA") = some (.sStr []) ∧
    encode_comms [(pstr "TPA", PyVal.pStr (pstr "HLO"))] =
      some (pstr "TPA HLO END\r\n") ∧
    decode_comms (pstr "TPA HLO END\r\n") true false =
      .ok [(errK, .pList [pstr "HLO"]), (pstr "TPA", .pStr (pstr "HLO"))] ∧
    dget [(pstr "TPA", PyVal.pStr (pstr "HLO"))] errK = none ∧
    dget [(errK, PyVal.pList [pstr "HLO"]),
      (pstr "TPA", PyVal.pStr (pstr "HLO"))] errK =
      some (.pList [pstr "HLO"]) := by
  refine ⟨by decide, by decide, by decide, by decide, by decide⟩

/-- Concrete instance of the amended C1 theorem on a three-key set. -/
theorem C1_roundtrip_amended_witness :
    ∃ s r, encode_comms [(pstr "SSA", PyVal.pInt 100),
        (pstr "ATA", PyVal.pBool true),
        (pstr "TPA", PyVal.pStr (pstr "dark"))] = some s ∧
      decode_comms s true false = .ok r ∧
      (∀ k, dget r k = (dget [(pstr "SSA", PyVal.pInt 100),
        (pstr "ATA", PyVal.pBool true),
        (pstr "TPA", PyVal.pStr (pstr "dark"))] k).map decodedOf) ∧
      (∀ k q q', dget [(pstr "SSA", PyVal.pInt 100),
        (pstr "ATA", PyVal.pBool true),
        (pstr "TPA", PyVal.pStr (pstr "dark"))] k = some (.pFloat q) →
        dget r k = some (.pFloat q') → |q' - q| ≤ 1 / 100) :=
  C1_roundtrip_amended
    [(pstr "SSA", PyVal.pInt 100), (pstr "ATA", PyVal.pBool true),
     (pstr "TPA", PyVal.pStr (pstr "dark"))]
    (by unfold keysND; decide) (by decide)
    (by
      intro p hp
      simp only [List.mem_cons, List.not_mem_nil, or_false] at hp
      rcases hp with rfl | rfl | rfl
      · exact ⟨.sInt 1 6000001, by decide, by decide⟩
      · exact ⟨.sBool, by decide, by decide⟩
      · exact ⟨.sStr [], by decide, by decide⟩)
    true false
